import Mathlib

/-!
Verification of the swirl-dynamics U-Net denoiser (`lib/diffusion/unets.py`)
and the conditional-sampling evaluator
(`projects/probabilistic_diffusion/evaluate.py`).

Arrays are shallowly embedded as a shape (a list of dimension sizes) paired
with a data function from (multi-)indices to an abstract field `R`.
Transcendental operations (`sqrt`, `log`, `exp`, `sin`, `cos`) and the
constant `pi` are abstract parameters, since the structural claims hold for
every interpretation of them.  Learned layers (`nn.Dense`) are embedded with
explicit weight and bias functions.  Layers of `swirl_dynamics.lib.layers`
whose sources are not part of this snapshot are modelled from the spec at the
shape level where a claim needs them.
-/

namespace SwirlDynamics

/-- An n-dimensional array: a shape together with a total data function on
index lists (only indices valid for the shape are meaningful). -/
structure NDArray (R : Type) where
  shape : List Nat
  data : List Nat → R

namespace NDArray

/-- `ndarray.ndim` in numpy / jax. -/
def ndim {R : Type} (a : NDArray R) : Nat := a.shape.length

/-- Broadcasting of a single pair of dimensions (numpy semantics): a
dimension of size 1 stretches to the other, equal dimensions agree, and
anything else is an error. -/
def bcDim (d e : Nat) : Option Nat :=
  if d = 1 then some e else if e = 1 then some d else if d = e then some d else none

/-- Left-pad a shape with 1s to rank `n` (numpy right-alignment). -/
def padShape (n : Nat) (s : List Nat) : List Nat :=
  List.replicate (n - s.length) 1 ++ s

/-- Combine an optional head dimension with an optional tail shape. -/
def consDim (o : Option Nat) (t : Option (List Nat)) : Option (List Nat) :=
  match o, t with
  | some d, some s => some (d :: s)
  | _, _ => none

/-- The numpy broadcast of two shapes, `none` when incompatible. -/
def broadcastShape (s t : List Nat) : Option (List Nat) :=
  let n := max s.length t.length
  (List.zipWith bcDim (padShape n s) (padShape n t)).foldr consDim (some [])

/-- Map an index of the broadcast result to an index of an operand with
shape `s`: drop the padded leading axes and send size-1 axes to 0. -/
def bcIdx (s idx : List Nat) : List Nat :=
  List.zipWith (fun d i => if d = 1 then 0 else i) s (idx.drop (idx.length - s.length))

/-- Elementwise binary operation with numpy broadcasting (the shape is junk
`[]` when the operands do not broadcast; all uses below do broadcast). -/
def ebin {R : Type} (f : R → R → R) (a b : NDArray R) : NDArray R :=
  ⟨(broadcastShape a.shape b.shape).getD [],
   fun idx => f (a.data (bcIdx a.shape idx)) (b.data (bcIdx b.shape idx))⟩

/-- `jnp.multiply` (and `*`) with broadcasting. -/
def mulA {R : Type} [Mul R] (a b : NDArray R) : NDArray R := ebin (· * ·) a b

/-- `+` with broadcasting. -/
def addA {R : Type} [Add R] (a b : NDArray R) : NDArray R := ebin (· + ·) a b

/-- `/` with broadcasting. -/
def divA {R : Type} [Div R] (a b : NDArray R) : NDArray R := ebin (· / ·) a b

/-- Elementwise unary map, e.g. `jnp.square`, `jnp.sqrt`, `jnp.log`. -/
def emap {R : Type} (f : R → R) (a : NDArray R) : NDArray R :=
  ⟨a.shape, fun idx => f (a.data idx)⟩

/-- A python scalar, i.e. a rank-0 array. -/
def scalarA {R : Type} (c : R) : NDArray R := ⟨[], fun _ => c⟩

/-- `jnp.broadcast_to`. -/
def broadcastTo {R : Type} (a : NDArray R) (s : List Nat) : NDArray R :=
  ⟨s, fun idx => a.data (bcIdx a.shape idx)⟩

/-- `jnp.expand_dims(a, axis=np.arange(k) + a.ndim)` specialised to the use
in `PreconditionedDenoiser.__call__`, where `k` trailing singleton axes are
appended to a rank-1 coefficient array. -/
def expandTrailing {R : Type} (k : Nat) (a : NDArray R) : NDArray R :=
  ⟨a.shape ++ List.replicate k 1, fun idx => a.data (idx.take a.shape.length)⟩

/-- Whether `idx` is a valid (in-bounds) index for shape `s`. -/
def validIdx (s idx : List Nat) : Bool :=
  s.length = idx.length && (List.zip idx s).all fun p => p.1 < p.2

end NDArray

open NDArray

/- ### Basic broadcasting lemmas -/

theorem bcDim_self (d : Nat) : bcDim d d = some d := by
  unfold bcDim
  by_cases h : d = 1 <;> simp [h]

theorem bcDim_one_left (d : Nat) : bcDim 1 d = some d := by
  simp [bcDim]

theorem bcDim_one_right (d : Nat) : bcDim d 1 = some d := by
  unfold bcDim
  by_cases h : d = 1 <;> simp [h]

theorem broadcastShape_self (s : List Nat) : broadcastShape s s = some s := by
  unfold broadcastShape padShape
  simp only [max_self, Nat.sub_self, List.replicate_zero, List.nil_append]
  induction s with
  | nil => rfl
  | cons d t ih =>
      simp only [List.zipWith_cons_cons, List.foldr_cons, ih, bcDim_self, consDim]

/-- Broadcasting a `(b, 1, ..., 1)` coefficient shape against a full
`(b, rest...)` shape yields the full shape. -/
theorem broadcastShape_coeff (b : Nat) (rest : List Nat) :
    broadcastShape (b :: List.replicate rest.length 1) (b :: rest) = some (b :: rest) := by
  unfold broadcastShape padShape
  simp only [List.length_cons, List.length_replicate, max_self, Nat.sub_self,
    List.replicate_zero, List.nil_append, List.zipWith_cons_cons, List.foldr_cons, bcDim_self]
  have h : ∀ t : List Nat,
      (List.zipWith bcDim (List.replicate t.length 1) t).foldr consDim (some []) = some t := by
    intro t
    induction t with
    | nil => rfl
    | cons d t ih =>
        simp only [List.length_cons, List.replicate_succ, List.zipWith_cons_cons,
          List.foldr_cons, ih, bcDim_one_left, consDim]
  rw [h rest]
  rfl

theorem bcIdx_valid (s idx : List Nat) (h : validIdx s idx = true) :
    bcIdx s idx = idx := by
  unfold validIdx at h
  simp only [Bool.and_eq_true, decide_eq_true_eq, List.all_eq_true] at h
  obtain ⟨hlen, hb⟩ := h
  unfold bcIdx
  rw [hlen, Nat.sub_self]
  simp only [List.drop_zero]
  induction s generalizing idx with
  | nil =>
      cases idx with
      | nil => rfl
      | cons i t => simp at hlen
  | cons d s ih =>
      cases idx with
      | nil => simp at hlen
      | cons i t =>
          simp only [List.zipWith_cons_cons]
          have hib : i < d := by
            have := hb (i, d) (by simp [List.zip])
            simpa using this
          have hd : (if d = 1 then 0 else i) = i := by
            by_cases hd1 : d = 1
            · subst hd1
              simp only [eq_self_iff_true, if_true]
              omega
            · simp [hd1]
          rw [hd, ih t (by simpa using hlen)
            (fun p hp => hb p (by simp [List.zip] at hp ⊢; right; exact hp))]

/-- For a valid index `i0 :: ir` of shape `b :: rest`, a broadcast-mapped
index into the expanded coefficient shape `(b, 1, ..., 1)` is `i0` followed
by zeros. -/
theorem bcIdx_coeff (b : Nat) (rest : List Nat) (i0 : Nat) (ir : List Nat)
    (hi0 : i0 < b) (hlen : ir.length = rest.length) :
    bcIdx (b :: List.replicate rest.length 1) (i0 :: ir) =
      i0 :: List.replicate rest.length 0 := by
  unfold bcIdx
  simp only [List.length_cons, List.length_replicate, hlen, Nat.sub_self, List.drop_zero,
    List.zipWith_cons_cons]
  have hb : (if b = 1 then 0 else i0) = i0 := by
    by_cases h1 : b = 1
    · subst h1
      simp only [eq_self_iff_true, if_true]
      omega
    · simp [h1]
  rw [hb]
  congr 1
  clear hb hi0
  induction rest generalizing ir with
  | nil =>
      cases ir with
      | nil => rfl
      | cons _ _ => simp at hlen
  | cons d t ih =>
      cases ir with
      | nil => simp at hlen
      | cons j jr =>
          simp only [List.length_cons] at hlen
          have h2 := ih jr (by omega)
          simpa [List.replicate_succ] using h2

theorem validIdx_cons (d : Nat) (s : List Nat) (i : Nat) (t : List Nat) :
    validIdx (d :: s) (i :: t) = true ↔ i < d ∧ validIdx s t = true := by
  unfold validIdx
  simp only [List.length_cons, List.zip_cons_cons, List.all_cons, Bool.and_eq_true,
    decide_eq_true_eq]
  constructor
  · rintro ⟨h1, h2, h3⟩
    exact ⟨h2, by omega, h3⟩
  · rintro ⟨h1, h2, h3⟩
    exact ⟨by omega, h1, h3⟩

theorem validIdx_length (s idx : List Nat) (h : validIdx s idx = true) :
    idx.length = s.length := by
  unfold validIdx at h
  simp only [Bool.and_eq_true, decide_eq_true_eq] at h
  exact h.1.symm

theorem broadcastShape_nil_left (s : List Nat) : broadcastShape [] s = some s := by
  unfold broadcastShape padShape
  simp only [List.length_nil, Nat.max_eq_right (Nat.zero_le _), Nat.sub_zero,
    Nat.sub_self, List.replicate_zero, List.nil_append, List.append_nil]
  induction s with
  | nil => rfl
  | cons d t ih =>
      simp only [List.length_cons, List.replicate_succ, List.zipWith_cons_cons,
        List.foldr_cons, ih, bcDim_one_left, consDim]

theorem broadcastShape_nil_right (s : List Nat) : broadcastShape s [] = some s := by
  unfold broadcastShape padShape
  simp only [List.length_nil, Nat.max_eq_left (Nat.zero_le _), Nat.sub_zero,
    Nat.sub_self, List.replicate_zero, List.nil_append, List.append_nil]
  induction s with
  | nil => rfl
  | cons d t ih =>
      simp only [List.length_cons, List.replicate_succ, List.zipWith_cons_cons,
        List.foldr_cons, ih, bcDim_one_right, consDim]

theorem bcIdx_nil (idx : List Nat) : bcIdx [] idx = [] := rfl

theorem bcIdx_one (b i : Nat) (hi : i < b) : bcIdx [b] [i] = [i] := by
  unfold bcIdx
  simp only [List.length_cons, List.length_nil, Nat.sub_self, List.drop_zero,
    List.zipWith_cons_cons, List.zipWith_nil_right]
  by_cases h1 : b = 1
  · subst h1
    have h0 : i = 0 := by omega
    subst h0
    simp
  · simp [h1]

/- ### `unets.py` value level: sigma validation and preconditioning -/

/-- The error raised by `UNet.__call__` / `PreconditionedDenoiser.__call__`
when sigma does not validate. -/
def sigmaError : String :=
  "sigma must be 1D and have the same leading (batch) dimension as x!"

/-- `UNet.__call__` (lines 471-555): a scalar sigma is broadcast to the
batch shape, then sigma is validated; the architecture proper is the
abstract `body` (its internals are verified at the shape level below). -/
def unetCall {R : Type} (body : NDArray R → NDArray R → NDArray R)
    (x sigma : NDArray R) : Except String (NDArray R) :=
  let sigma1 := if sigma.ndim < 1 then broadcastTo sigma [x.shape.headD 0] else sigma
  if sigma1.ndim ≠ 1 ∨ x.shape.headD 0 ≠ sigma1.shape.headD 0 then
    Except.error sigmaError
  else
    Except.ok (body x sigma1)

/-- `total_var = jnp.square(self.sigma_data) + jnp.square(sigma)`. -/
def totalVarA {R : Type} [Field R] (sigma_data : R) (sigma1 : NDArray R) : NDArray R :=
  addA (scalarA (sigma_data * sigma_data)) (emap (fun v => v * v) sigma1)

/-- `c_skip = jnp.square(self.sigma_data) / total_var`. -/
def cSkipA {R : Type} [Field R] (sigma_data : R) (sigma1 : NDArray R) : NDArray R :=
  divA (scalarA (sigma_data * sigma_data)) (totalVarA sigma_data sigma1)

/-- `c_out = sigma * self.sigma_data / jnp.sqrt(total_var)`. -/
def cOutA {R : Type} [Field R] (sqrt : R → R) (sigma_data : R) (sigma1 : NDArray R) :
    NDArray R :=
  divA (mulA sigma1 (scalarA sigma_data)) (emap sqrt (totalVarA sigma_data sigma1))

/-- `c_in = 1 / jnp.sqrt(total_var)`. -/
def cInA {R : Type} [Field R] (sqrt : R → R) (sigma_data : R) (sigma1 : NDArray R) :
    NDArray R :=
  divA (scalarA 1) (emap sqrt (totalVarA sigma_data sigma1))

/-- `c_noise = 0.25 * jnp.log(sigma)`. -/
def cNoiseA {R : Type} [Field R] (log : R → R) (sigma1 : NDArray R) : NDArray R :=
  mulA (scalarA (1 / 4 : R)) (emap log sigma1)

/-- The first argument the preconditioned denoiser passes to the U-Net:
`jnp.multiply(c_in, x)` with `c_in` expanded by `x.ndim - 1` trailing
singleton axes. -/
def precondInput {R : Type} [Field R] (sqrt : R → R) (sigma_data : R)
    (x sigma1 : NDArray R) : NDArray R :=
  mulA (expandTrailing (x.ndim - 1) (cInA sqrt sigma_data sigma1)) x

/-- `PreconditionedDenoiser.__call__` (lines 566-598), with the underlying
U-Net forward pass abstracted as `body`. -/
def precondCall {R : Type} [Field R] (sqrt log : R → R)
    (body : NDArray R → NDArray R → NDArray R) (sigma_data : R)
    (x sigma : NDArray R) : Except String (NDArray R) :=
  let sigma1 := if sigma.ndim < 1 then broadcastTo sigma [x.shape.headD 0] else sigma
  if sigma1.ndim ≠ 1 ∨ x.shape.headD 0 ≠ sigma1.shape.headD 0 then
    Except.error sigmaError
  else
    let c_skip_e := expandTrailing (x.ndim - 1) (cSkipA sigma_data sigma1)
    let c_out_e := expandTrailing (x.ndim - 1) (cOutA sqrt sigma_data sigma1)
    match unetCall body (precondInput sqrt sigma_data x sigma1) (cNoiseA log sigma1) with
    | Except.error e => Except.error e
    | Except.ok f_x => Except.ok (addA (mulA c_skip_e x) (mulA c_out_e f_x))

/- ### Shape and pointwise-value lemmas for the preconditioning pieces -/

theorem totalVarA_shape {R : Type} [Field R] (sd : R) (s1 : NDArray R) :
    (totalVarA sd s1).shape = s1.shape := by
  simp [totalVarA, addA, ebin, scalarA, emap, broadcastShape_nil_left]

theorem cSkipA_shape {R : Type} [Field R] (sd : R) (s1 : NDArray R) :
    (cSkipA sd s1).shape = s1.shape := by
  simp [cSkipA, divA, ebin, scalarA, broadcastShape_nil_left, totalVarA_shape]

theorem cOutA_shape {R : Type} [Field R] (sqrt : R → R) (sd : R) (s1 : NDArray R) :
    (cOutA sqrt sd s1).shape = s1.shape := by
  simp [cOutA, divA, mulA, ebin, scalarA, emap, totalVarA_shape,
    broadcastShape_nil_right, broadcastShape_self]

theorem cInA_shape {R : Type} [Field R] (sqrt : R → R) (sd : R) (s1 : NDArray R) :
    (cInA sqrt sd s1).shape = s1.shape := by
  simp [cInA, divA, ebin, scalarA, emap, totalVarA_shape, broadcastShape_nil_left]

theorem cNoiseA_shape {R : Type} [Field R] (log : R → R) (s1 : NDArray R) :
    (cNoiseA log s1).shape = s1.shape := by
  simp [cNoiseA, mulA, ebin, scalarA, emap, broadcastShape_nil_left]

theorem totalVarA_data {R : Type} [Field R] (sd : R) (s1 : NDArray R) (b i : Nat)
    (hs1 : s1.shape = [b]) (hi : i < b) :
    (totalVarA sd s1).data [i] = sd * sd + s1.data [i] * s1.data [i] := by
  simp [totalVarA, addA, ebin, scalarA, emap, bcIdx_nil, hs1, bcIdx_one b i hi]

theorem cSkipA_data {R : Type} [Field R] (sd : R) (s1 : NDArray R) (b i : Nat)
    (hs1 : s1.shape = [b]) (hi : i < b) :
    (cSkipA sd s1).data [i] =
      (sd * sd) / (sd * sd + s1.data [i] * s1.data [i]) := by
  simp [cSkipA, divA, ebin, scalarA, bcIdx_nil, totalVarA_shape, hs1,
    bcIdx_one b i hi, totalVarA_data sd s1 b i hs1 hi]

theorem cOutA_data {R : Type} [Field R] (sqrt : R → R) (sd : R) (s1 : NDArray R)
    (b i : Nat) (hs1 : s1.shape = [b]) (hi : i < b) :
    (cOutA sqrt sd s1).data [i] =
      (s1.data [i] * sd) / sqrt (sd * sd + s1.data [i] * s1.data [i]) := by
  simp [cOutA, divA, mulA, ebin, scalarA, emap, bcIdx_nil, totalVarA_shape, hs1,
    broadcastShape_nil_right, bcIdx_one b i hi, totalVarA_data sd s1 b i hs1 hi]

theorem cInA_data {R : Type} [Field R] (sqrt : R → R) (sd : R) (s1 : NDArray R)
    (b i : Nat) (hs1 : s1.shape = [b]) (hi : i < b) :
    (cInA sqrt sd s1).data [i] =
      1 / sqrt (sd * sd + s1.data [i] * s1.data [i]) := by
  simp [cInA, divA, ebin, scalarA, emap, bcIdx_nil, totalVarA_shape, hs1,
    bcIdx_one b i hi, totalVarA_data sd s1 b i hs1 hi]

theorem cNoiseA_data {R : Type} [Field R] (log : R → R) (s1 : NDArray R) (b i : Nat)
    (hs1 : s1.shape = [b]) (hi : i < b) :
    (cNoiseA log s1).data [i] = (1 / 4 : R) * log (s1.data [i]) := by
  simp [cNoiseA, mulA, ebin, scalarA, emap, bcIdx_nil, hs1, bcIdx_one b i hi]

theorem precondInput_shape {R : Type} [Field R] (sqrt : R → R) (sd : R)
    (x s1 : NDArray R) (b : Nat) (rest : List Nat)
    (hx : x.shape = b :: rest) (hs1 : s1.shape = [b]) :
    (precondInput sqrt sd x s1).shape = b :: rest := by
  have hc : (cInA sqrt sd s1).shape = [b] := by rw [cInA_shape, hs1]
  have hk : x.ndim - 1 = rest.length := by simp [ndim, hx]
  simp [precondInput, mulA, ebin, expandTrailing, hc, hk, hx,
    List.replicate, broadcastShape_coeff]

theorem precondInput_data {R : Type} [Field R] (sqrt : R → R) (sd : R)
    (x s1 : NDArray R) (b : Nat) (rest : List Nat) (i0 : Nat) (ir : List Nat)
    (hx : x.shape = b :: rest) (hs1 : s1.shape = [b])
    (hv : validIdx (b :: rest) (i0 :: ir) = true) :
    (precondInput sqrt sd x s1).data (i0 :: ir) =
      (1 / sqrt (sd * sd + s1.data [i0] * s1.data [i0])) * x.data (i0 :: ir) := by
  have hi0 : i0 < b := ((validIdx_cons b rest i0 ir).mp hv).1
  have hirl : ir.length = rest.length := by
    have := validIdx_length rest ir ((validIdx_cons b rest i0 ir).mp hv).2
    exact this
  have hc : (cInA sqrt sd s1).shape = [b] := by rw [cInA_shape, hs1]
  have hk : x.ndim - 1 = rest.length := by simp [ndim, hx]
  have hvx : validIdx x.shape (i0 :: ir) = true := by rw [hx]; exact hv
  simp only [precondInput, mulA, ebin, expandTrailing, hc, hk, hx]
  rw [List.singleton_append, bcIdx_coeff b rest i0 ir hi0 hirl, bcIdx_valid _ _ hv]
  simp [cInA_data sqrt sd s1 b i0 hs1 hi0]

/- ### Case analysis of the sigma validation -/

theorem unetCall_scalar {R : Type} (body : NDArray R → NDArray R → NDArray R)
    (x sigma : NDArray R) (b : Nat) (rest : List Nat)
    (hx : x.shape = b :: rest) (hs : sigma.ndim = 0) :
    unetCall body x sigma = Except.ok (body x (broadcastTo sigma [b])) := by
  have h0 : sigma.shape = [] := List.length_eq_zero.mp hs
  simp [unetCall, h0, hx, ndim, broadcastTo]

theorem unetCall_ok {R : Type} (body : NDArray R → NDArray R → NDArray R)
    (x sigma : NDArray R) (b : Nat) (rest : List Nat)
    (hx : x.shape = b :: rest) (hs : sigma.shape = [b]) :
    unetCall body x sigma = Except.ok (body x sigma) := by
  simp [unetCall, hs, hx, ndim]

theorem unetCall_err_rank {R : Type} (body : NDArray R → NDArray R → NDArray R)
    (x sigma : NDArray R) (hs : 2 ≤ sigma.ndim) :
    unetCall body x sigma = Except.error sigmaError := by
  have h1 : ¬sigma.ndim < 1 := by omega
  have h2 : sigma.ndim ≠ 1 := by omega
  simp [unetCall, h1, h2]

theorem unetCall_err_mismatch {R : Type} (body : NDArray R → NDArray R → NDArray R)
    (x sigma : NDArray R) (b m : Nat) (rest : List Nat)
    (hx : x.shape = b :: rest) (hs : sigma.shape = [m]) (hm : b ≠ m) :
    unetCall body x sigma = Except.error sigmaError := by
  simp [unetCall, hs, hx, ndim, hm]

/-- Inside `PreconditionedDenoiser.__call__`, the recursive call
`super().__call__(c_in * x, c_noise, ...)` always passes the sigma
validation of `UNet.__call__`. -/
theorem precond_inner_ok {R : Type} [Field R] (sq lg : R → R)
    (body : NDArray R → NDArray R → NDArray R) (sd : R)
    (x s1 : NDArray R) (b : Nat) (rest : List Nat)
    (hx : x.shape = b :: rest) (hs1 : s1.shape = [b]) :
    unetCall body (precondInput sq sd x s1) (cNoiseA lg s1) =
      Except.ok (body (precondInput sq sd x s1) (cNoiseA lg s1)) := by
  have h1 : (cNoiseA lg s1).shape = [b] := by rw [cNoiseA_shape, hs1]
  have h2 : (precondInput sq sd x s1).shape = b :: rest :=
    precondInput_shape sq sd x s1 b rest hx hs1
  simp [unetCall, ndim, h1, h2]

theorem precondCall_ok {R : Type} [Field R] (sq lg : R → R)
    (body : NDArray R → NDArray R → NDArray R) (sd : R)
    (x sigma : NDArray R) (b : Nat) (rest : List Nat)
    (hx : x.shape = b :: rest) (hs : sigma.shape = [b]) :
    precondCall sq lg body sd x sigma =
      Except.ok (addA (mulA (expandTrailing (x.ndim - 1) (cSkipA sd sigma)) x)
        (mulA (expandTrailing (x.ndim - 1) (cOutA sq sd sigma))
          (body (precondInput sq sd x sigma) (cNoiseA lg sigma)))) := by
  have hinner := precond_inner_ok sq lg body sd x sigma b rest hx hs
  simp [precondCall, ndim, hs, hx, hinner]

theorem precondCall_scalar {R : Type} [Field R] (sq lg : R → R)
    (body : NDArray R → NDArray R → NDArray R) (sd : R)
    (x sigma : NDArray R) (b : Nat) (rest : List Nat)
    (hx : x.shape = b :: rest) (hs : sigma.ndim = 0) :
    precondCall sq lg body sd x sigma =
      Except.ok (addA
        (mulA (expandTrailing (x.ndim - 1) (cSkipA sd (broadcastTo sigma [b]))) x)
        (mulA (expandTrailing (x.ndim - 1) (cOutA sq sd (broadcastTo sigma [b])))
          (body (precondInput sq sd x (broadcastTo sigma [b]))
            (cNoiseA lg (broadcastTo sigma [b]))))) := by
  have h0 : sigma.shape = [] := List.length_eq_zero.mp hs
  have hb : (broadcastTo sigma [b]).shape = [b] := rfl
  have hinner := precond_inner_ok sq lg body sd x (broadcastTo sigma [b]) b rest hx hb
  simp only [broadcastTo, h0] at hinner
  simp [precondCall, ndim, h0, hx, broadcastTo, hinner]

theorem precondCall_err_rank {R : Type} [Field R] (sq lg : R → R)
    (body : NDArray R → NDArray R → NDArray R) (sd : R)
    (x sigma : NDArray R) (hs : 2 ≤ sigma.ndim) :
    precondCall sq lg body sd x sigma = Except.error sigmaError := by
  have h1 : ¬sigma.ndim < 1 := by omega
  have h2 : sigma.ndim ≠ 1 := by omega
  simp [precondCall, h1, h2]

theorem precondCall_err_mismatch {R : Type} [Field R] (sq lg : R → R)
    (body : NDArray R → NDArray R → NDArray R) (sd : R)
    (x sigma : NDArray R) (b m : Nat) (rest : List Nat)
    (hx : x.shape = b :: rest) (hs : sigma.shape = [m]) (hm : b ≠ m) :
    precondCall sq lg body sd x sigma = Except.error sigmaError := by
  simp [precondCall, hs, hx, ndim, hm]

/-- Shape of `jnp.multiply(coeff_expanded, y)` for a `(b,)` coefficient and a
full `(b, rest...)` operand. -/
theorem mulA_coeff_shape {R : Type} [Mul R] (c y : NDArray R) (b : Nat)
    (rest : List Nat) (k : Nat) (hc : c.shape = [b]) (hk : k = rest.length)
    (hy : y.shape = b :: rest) :
    (mulA (expandTrailing k c) y).shape = b :: rest := by
  simp [mulA, ebin, expandTrailing, hc, hk, hy, broadcastShape_coeff]

/-- Pointwise value of `jnp.multiply(coeff_expanded, y)`: each batch element
is scaled by its batch coefficient. -/
theorem mulA_coeff_data {R : Type} [Mul R] (c y : NDArray R) (b : Nat)
    (rest : List Nat) (k i0 : Nat) (ir : List Nat) (hc : c.shape = [b])
    (hk : k = rest.length) (hy : y.shape = b :: rest)
    (hv : validIdx (b :: rest) (i0 :: ir) = true) :
    (mulA (expandTrailing k c) y).data (i0 :: ir) = c.data [i0] * y.data (i0 :: ir) := by
  have hi0 : i0 < b := ((validIdx_cons b rest i0 ir).mp hv).1
  have hirl : ir.length = rest.length :=
    validIdx_length rest ir ((validIdx_cons b rest i0 ir).mp hv).2
  have hvy : validIdx y.shape (i0 :: ir) = true := by rw [hy]; exact hv
  simp only [mulA, ebin, expandTrailing, hc, hk, hy]
  rw [List.singleton_append, bcIdx_coeff b rest i0 ir hi0 hirl, bcIdx_valid _ _ hv]
  simp

/-- C1: for every input `x` of shape `(batch, *spatial, channels)` and every
1-D `sigma` of matching batch length, `PreconditionedDenoiser.__call__`
returns `c_skip * x + c_out * F(c_in * x, c_noise)` where `F` is the
underlying U-Net forward pass and, with `total_var = sigma_data^2 + sigma^2`,
`c_skip = sigma_data^2 / total_var`, `c_out = sigma * sigma_data /
sqrt(total_var)`, `c_in = 1 / sqrt(total_var)` and
`c_noise = 0.25 * log(sigma)` (the Karras et al. parameterization), applied
per batch element. -/
theorem preconditioned_denoiser_karras {R : Type} [Field R] (sq lg : R → R)
    (body : NDArray R → NDArray R → NDArray R) (sd : R)
    (x sigma : NDArray R) (b : Nat) (rest : List Nat)
    (hx : x.shape = b :: rest) (hs : sigma.shape = [b])
    (hbody : ∀ a s, (body a s).shape = a.shape) :
    ∃ out : NDArray R,
      precondCall sq lg body sd x sigma = Except.ok out ∧
      out.shape = b :: rest ∧
      (precondInput sq sd x sigma).shape = b :: rest ∧
      (cNoiseA lg sigma).shape = [b] ∧
      ∀ i0 ir, validIdx (b :: rest) (i0 :: ir) = true →
        out.data (i0 :: ir) =
            sd * sd / (sd * sd + sigma.data [i0] * sigma.data [i0]) * x.data (i0 :: ir) +
            sigma.data [i0] * sd / sq (sd * sd + sigma.data [i0] * sigma.data [i0]) *
              (body (precondInput sq sd x sigma) (cNoiseA lg sigma)).data (i0 :: ir) ∧
        (precondInput sq sd x sigma).data (i0 :: ir) =
            1 / sq (sd * sd + sigma.data [i0] * sigma.data [i0]) * x.data (i0 :: ir) ∧
        (cNoiseA lg sigma).data [i0] = (1 / 4 : R) * lg (sigma.data [i0]) := by
  have hk : x.ndim - 1 = rest.length := by simp [ndim, hx]
  have hcs : (cSkipA sd sigma).shape = [b] := by rw [cSkipA_shape, hs]
  have hco : (cOutA sq sd sigma).shape = [b] := by rw [cOutA_shape, hs]
  have hpi : (precondInput sq sd x sigma).shape = b :: rest :=
    precondInput_shape sq sd x sigma b rest hx hs
  have hcn : (cNoiseA lg sigma).shape = [b] := by rw [cNoiseA_shape, hs]
  have hfxs : (body (precondInput sq sd x sigma) (cNoiseA lg sigma)).shape = b :: rest := by
    rw [hbody, hpi]
  have hm1 : (mulA (expandTrailing (x.ndim - 1) (cSkipA sd sigma)) x).shape = b :: rest :=
    mulA_coeff_shape _ _ b rest _ hcs hk hx
  have hm2 : (mulA (expandTrailing (x.ndim - 1) (cOutA sq sd sigma))
      (body (precondInput sq sd x sigma) (cNoiseA lg sigma))).shape = b :: rest :=
    mulA_coeff_shape _ _ b rest _ hco hk hfxs
  refine ⟨_, precondCall_ok sq lg body sd x sigma b rest hx hs, ?_, hpi, hcn, ?_⟩
  · simp [addA, ebin, hm1, hm2, broadcastShape_self]
  · intro i0 ir hv
    have hi0 : i0 < b := ((validIdx_cons b rest i0 ir).mp hv).1
    refine ⟨?_, precondInput_data sq sd x sigma b rest i0 ir hx hs hv,
      cNoiseA_data lg sigma b i0 hs hi0⟩
    show (addA _ _).data (i0 :: ir) = _
    simp only [addA, ebin]
    rw [hm1, hm2, bcIdx_valid _ _ hv]
    rw [mulA_coeff_data _ _ b rest _ i0 ir hcs hk hx hv,
      mulA_coeff_data _ _ b rest _ i0 ir hco hk hfxs hv,
      cSkipA_data sd sigma b i0 hs hi0, cOutA_data sq sd sigma b i0 hs hi0]

/-- C10: in both `UNet.__call__` and `PreconditionedDenoiser.__call__`, a
scalar sigma (`ndim < 1`) is first broadcast to shape `(x.shape[0],)`, and
afterwards a `ValueError` is raised if and only if `sigma.ndim != 1` or
`sigma.shape[0] != x.shape[0]`: scalar sigma is always accepted, and any
sigma of rank 2 or more, or a 1-D sigma whose length differs from the batch
dimension of `x`, is always rejected. -/
theorem sigma_validation {R : Type} [Field R] (sq lg : R → R)
    (body : NDArray R → NDArray R → NDArray R) (sd : R)
    (x sigma : NDArray R) (b : Nat) (rest : List Nat) (hx : x.shape = b :: rest) :
    ((unetCall body x sigma).isOk = true ↔
        sigma.ndim = 0 ∨ (sigma.ndim = 1 ∧ sigma.shape = [b])) ∧
    ((precondCall sq lg body sd x sigma).isOk = true ↔
        sigma.ndim = 0 ∨ (sigma.ndim = 1 ∧ sigma.shape = [b])) ∧
    (sigma.ndim = 0 → unetCall body x sigma = Except.ok (body x (broadcastTo sigma [b]))) := by
  rcases hsh : sigma.shape with _ | ⟨m, mt⟩
  · have h0 : sigma.ndim = 0 := by simp [ndim, hsh]
    refine ⟨?_, ?_, fun _ => unetCall_scalar body x sigma b rest hx h0⟩
    · rw [unetCall_scalar body x sigma b rest hx h0]
      simp [Except.isOk, Except.toBool, h0]
    · rw [precondCall_scalar sq lg body sd x sigma b rest hx h0]
      simp [Except.isOk, Except.toBool, h0]
  · rcases mt with _ | ⟨d2, t⟩
    · have h1 : sigma.ndim = 1 := by simp [ndim, hsh]
      by_cases hm : m = b
      · have hsb : sigma.shape = [b] := by rw [hsh, hm]
        refine ⟨?_, ?_, ?_⟩
        · rw [unetCall_ok body x sigma b rest hx hsb]
          simp [Except.isOk, Except.toBool, h1, hsb, hm]
        · rw [precondCall_ok sq lg body sd x sigma b rest hx hsb]
          simp [Except.isOk, Except.toBool, h1, hsb, hm]
        · intro h0
          rw [h1] at h0
          exact absurd h0 one_ne_zero
      · have hbm : b ≠ m := fun h => hm h.symm
        refine ⟨?_, ?_, ?_⟩
        · rw [unetCall_err_mismatch body x sigma b m rest hx hsh hbm]
          simp [Except.isOk, Except.toBool, h1, hsh, hm]
        · rw [precondCall_err_mismatch sq lg body sd x sigma b m rest hx hsh hbm]
          simp [Except.isOk, Except.toBool, h1, hsh, hm]
        · intro h0
          rw [h1] at h0
          exact absurd h0 one_ne_zero
    · have h2 : 2 ≤ sigma.ndim := by
        simp only [ndim, hsh, List.length_cons]
        omega
      refine ⟨?_, ?_, ?_⟩
      · rw [unetCall_err_rank body x sigma h2]
        simp only [Except.isOk, Except.toBool]
        constructor
        · intro h
          exact absurd h (by simp)
        · intro h
          rcases h with h | ⟨h, _⟩ <;> omega
      · rw [precondCall_err_rank sq lg body sd x sigma h2]
        simp only [Except.isOk, Except.toBool]
        constructor
        · intro h
          exact absurd h (by simp)
        · intro h
          rcases h with h | ⟨h, _⟩ <;> omega
      · intro h0
        omega

/- ### Concrete instances used by the witnesses -/

/-- A concrete batch-2 input over the rationals. -/
def wX : NDArray ℚ := ⟨[2, 3], fun _ => 0⟩

/-- A concrete matching 1-D sigma for `wX`. -/
def wSigma : NDArray ℚ := ⟨[2], fun _ => 1⟩

/-- A concrete U-Net body: the identity in its first argument. -/
def wBody : NDArray ℚ → NDArray ℚ → NDArray ℚ := fun a _ => a

/-- A concrete batch-1 input over the rationals. -/
def wX1 : NDArray ℚ := ⟨[1, 1], fun _ => 1⟩

/-- A concrete matching 1-D sigma for `wX1`. -/
def wSigma1 : NDArray ℚ := ⟨[1], fun _ => 1⟩

theorem preconditioned_denoiser_karras_witness :
    ∃ out : NDArray ℚ,
      precondCall id id wBody 1 wX1 wSigma1 = Except.ok out ∧
      out.shape = 1 :: [1] ∧
      (precondInput id 1 wX1 wSigma1).shape = 1 :: [1] ∧
      (cNoiseA id wSigma1).shape = [1] ∧
      ∀ i0 ir, validIdx (1 :: [1]) (i0 :: ir) = true →
        out.data (i0 :: ir) =
            1 * 1 / (1 * 1 + wSigma1.data [i0] * wSigma1.data [i0]) * wX1.data (i0 :: ir) +
            wSigma1.data [i0] * 1 / id (1 * 1 + wSigma1.data [i0] * wSigma1.data [i0]) *
              (wBody (precondInput id 1 wX1 wSigma1) (cNoiseA id wSigma1)).data (i0 :: ir) ∧
        (precondInput id 1 wX1 wSigma1).data (i0 :: ir) =
            1 / id (1 * 1 + wSigma1.data [i0] * wSigma1.data [i0]) * wX1.data (i0 :: ir) ∧
        (cNoiseA id wSigma1).data [i0] = (1 / 4 : ℚ) * id (wSigma1.data [i0]) :=
  preconditioned_denoiser_karras id id wBody 1 wX1 wSigma1 1 [1] rfl rfl (fun _ _ => rfl)

theorem sigma_validation_witness :
    ((unetCall wBody wX wSigma).isOk = true ↔
        wSigma.ndim = 0 ∨ (wSigma.ndim = 1 ∧ wSigma.shape = [2])) ∧
    ((precondCall id id wBody 1 wX wSigma).isOk = true ↔
        wSigma.ndim = 0 ∨ (wSigma.ndim = 1 ∧ wSigma.shape = [2])) ∧
    (wSigma.ndim = 0 → unetCall wBody wX wSigma = Except.ok (wBody wX (broadcastTo wSigma [2]))) :=
  sigma_validation id id wBody 1 wX wSigma 2 [3] rfl

/- ### `nn.Dense`, `AdaptiveScale` and `FourierEmbedding` (value level) -/

/-- `nn.Dense(features=features)` applied along the last axis, with explicit
kernel `w` (input feature, output feature) and bias `bias`. -/
def dense {R : Type} [Field R] (features : Nat) (w : Nat → Nat → R)
    (bias : Nat → R) (a : NDArray R) : NDArray R :=
  ⟨a.shape.dropLast ++ [features],
   fun idx =>
     (Finset.range (a.shape.getLastD 0)).sum
       (fun j => a.data (idx.dropLast ++ [j]) * w j (idx.getLastD 0)) +
     bias (idx.getLastD 0)⟩

/-- The reshape in `AdaptiveScale.__call__`:
`scale_params.reshape(shape[:1] + (x.ndim - 2) * (1,) + shape[1:])`,
specialised to the rank-2 `scale_params` produced by the dense layer. -/
def insertMidOnes {R : Type} (k : Nat) (a : NDArray R) : NDArray R :=
  ⟨a.shape.take 1 ++ List.replicate k 1 ++ a.shape.drop 1,
   fun idx => a.data [idx.headD 0, idx.getLastD 0]⟩

/-- The first array of `jnp.split(a, 2, axis=-1)`. -/
def splitLo {R : Type} (a : NDArray R) : NDArray R :=
  ⟨a.shape.dropLast ++ [a.shape.getLastD 0 / 2], a.data⟩

/-- The second array of `jnp.split(a, 2, axis=-1)`. -/
def splitHi {R : Type} (a : NDArray R) : NDArray R :=
  ⟨a.shape.dropLast ++ [a.shape.getLastD 0 / 2],
   fun idx => a.data (idx.dropLast ++ [idx.getLastD 0 + a.shape.getLastD 0 / 2])⟩

/-- `AdaptiveScale.__call__` (lines 48-70): `x` is rescaled channel-wise by
`scale + 1` and offset by `bias`, where `scale` and `bias` are the two
halves of a dense projection of `act_fun(emb)` to `2 * channels` features;
the failed numpy assertion on `emb.ndim` is modelled as an error. -/
def adaptiveScale {R : Type} [Field R] (act : R → R) (w : Nat → Nat → R)
    (bias : Nat → R) (x emb : NDArray R) : Except String (NDArray R) :=
  if emb.ndim ≠ 2 then
    Except.error "The dimension of the embedding needs to be two"
  else
    let scale_params := dense (x.shape.getLastD 0 * 2) w bias (emap act emb)
    let sp := insertMidOnes (x.ndim - 2) scale_params
    Except.ok (addA (mulA x (addA (splitLo sp) (scalarA 1))) (splitHi sp))

/-- `jnp.linspace(0, stop, num)`: `num` evenly spaced points from 0 to
`stop` inclusive (step `stop / (num - 1)`; for `num = 1` numpy returns the
start point, matched here by division by zero yielding 0). -/
def linspaceA {R : Type} [Field R] (stop : R) (num : Nat) : NDArray R :=
  ⟨[num], fun idx => ((idx.headD 0 : Nat) : R) * (stop / (((num - 1 : Nat) : R)))⟩

/-- `a[None, :]` for a rank-1 array. -/
def expandRow {R : Type} (a : NDArray R) : NDArray R :=
  ⟨1 :: a.shape, fun idx => a.data [idx.getLastD 0]⟩

/-- `x[:, None]` for a rank-1 array. -/
def expandCol {R : Type} (a : NDArray R) : NDArray R :=
  ⟨a.shape ++ [1], fun idx => a.data [idx.headD 0]⟩

/-- `jnp.concatenate([a, b], axis=-1)`. -/
def concatLast {R : Type} (a b : NDArray R) : NDArray R :=
  ⟨a.shape.dropLast ++ [a.shape.getLastD 0 + b.shape.getLastD 0],
   fun idx =>
     if idx.getLastD 0 < a.shape.getLastD 0 then a.data idx
     else b.data (idx.dropLast ++ [idx.getLastD 0 - a.shape.getLastD 0])⟩

/-- `FourierEmbedding.__call__` (lines 176-188): sine and cosine features at
the `dims // 2` frequencies `pi * exp(linspace(0, log(max_freq), dims // 2))`
applied to the rank-1 input, concatenated along the last axis and, when
`projection` is set, passed through two dense layers; the numpy assertion
`x.ndim == 1` is modelled as an error. -/
def fourierEmbedding {R : Type} [Field R] (piC : R) (exp sin cos lg act : R → R)
    (dims : Nat) (max_freq : R) (projection : Bool)
    (w1 : Nat → Nat → R) (b1 : Nat → R) (w2 : Nat → Nat → R) (b2 : Nat → R)
    (x : NDArray R) : Except String (NDArray R) :=
  if x.ndim ≠ 1 then
    Except.error "assert failed: x.ndim == 1"
  else
    let logfreqs := linspaceA (lg max_freq) (dims / 2)
    let xf := mulA (mulA (scalarA piC) (expandRow (emap exp logfreqs))) (expandCol x)
    let xcat := concatLast (emap sin xf) (emap cos xf)
    if projection then
      Except.ok (dense dims w2 b2 (emap act (dense (2 * dims) w1 b1 xcat)))
    else
      Except.ok xcat

/- ### More index/broadcast helpers -/

theorem ite_dim_eq (d i : Nat) (hi : i < d) : (if d = 1 then 0 else i) = i := by
  by_cases h1 : d = 1
  · subst h1
    have h0 : i = 0 := by omega
    subst h0
    simp
  · simp [h1]

theorem zip_ones_zero (m : List Nat) :
    List.zipWith (fun d i => if d = 1 then 0 else i) (List.replicate m.length 1) m =
      List.replicate m.length 0 := by
  induction m with
  | nil => rfl
  | cons j jr ih =>
      simp only [List.length_cons, List.replicate_succ, List.zipWith_cons_cons, ih]
      simp

theorem validIdx_nil : validIdx [] [] = true := rfl

theorem validIdx_split_last (s m : List Nat) (c j : Nat)
    (h : validIdx (s ++ [c]) (m ++ [j]) = true) :
    validIdx s m = true ∧ j < c := by
  have hlen : m.length = s.length := by
    have h2 := validIdx_length (s ++ [c]) (m ++ [j]) h
    simp only [List.length_append, List.length_cons, List.length_nil] at h2
    omega
  induction s generalizing m with
  | nil =>
      have hm : m = [] := List.length_eq_zero.mp hlen
      subst hm
      simp only [List.nil_append] at h ⊢
      have := (validIdx_cons c [] j []).mp h
      exact ⟨validIdx_nil, this.1⟩
  | cons d s ih =>
      cases m with
      | nil => simp at hlen
      | cons i m2 =>
          simp only [List.cons_append] at h
          have h3 := (validIdx_cons d (s ++ [c]) i (m2 ++ [j])).mp h
          have h4 := ih m2 h3.2 (by simpa using hlen)
          exact ⟨(validIdx_cons d s i m2).mpr ⟨h3.1, h4.1⟩, h4.2⟩

theorem broadcastShape_eq_foldr (s t : List Nat) (hlen : s.length = t.length) :
    broadcastShape s t = (List.zipWith bcDim s t).foldr consDim (some []) := by
  unfold broadcastShape padShape
  simp only [hlen, max_self, Nat.sub_self, List.replicate_zero, List.nil_append]

/-- Broadcasting a full shape `(n, sp..., c)` against the FiLM parameter
shape `(n, 1, ..., 1, c)` yields the full shape. -/
theorem broadcastShape_midones (n c : Nat) (sp : List Nat) :
    broadcastShape (n :: (sp ++ [c])) (n :: (List.replicate sp.length 1 ++ [c])) =
      some (n :: (sp ++ [c])) := by
  rw [broadcastShape_eq_foldr _ _ (by simp)]
  simp only [List.zipWith_cons_cons, List.foldr_cons, bcDim_self]
  have h : ∀ sp2 : List Nat,
      (List.zipWith bcDim (sp2 ++ [c]) (List.replicate sp2.length 1 ++ [c])).foldr
        consDim (some []) = some (sp2 ++ [c]) := by
    intro sp2
    induction sp2 with
    | nil => simp [bcDim_self, consDim]
    | cons d t ih =>
        simp only [List.cons_append, List.length_cons, List.replicate_succ,
          List.zipWith_cons_cons, List.foldr_cons, ih, bcDim_one_right, consDim]
  rw [h sp]
  rfl

/-- Broadcast-index mapping into the FiLM parameter shape `(n, 1, ..., 1, c)`:
the spatial coordinates collapse to 0. -/
theorem bcIdx_midones (n c : Nat) (sp : List Nat) (i0 jc : Nat) (mid : List Nat)
    (hi0 : i0 < n) (hjc : jc < c) (hmid : mid.length = sp.length) :
    bcIdx (n :: (List.replicate sp.length 1 ++ [c])) (i0 :: (mid ++ [jc])) =
      i0 :: (List.replicate sp.length 0 ++ [jc]) := by
  unfold bcIdx
  have hdrop : (i0 :: (mid ++ [jc])).length -
      (n :: (List.replicate sp.length 1 ++ [c])).length = 0 := by
    simp [hmid]
  rw [hdrop]
  simp only [List.drop_zero, List.zipWith_cons_cons]
  rw [ite_dim_eq n i0 hi0]
  congr 1
  rw [List.zipWith_append _ _ _ _ _ (by simp [hmid])]
  have h1 := zip_ones_zero mid
  rw [hmid] at h1
  rw [h1]
  simp only [List.zipWith_cons_cons, List.zipWith_nil_right]
  rw [ite_dim_eq c jc hjc]

/- Definitional unfolding lemmas, used to rewrite one layer at a time. -/

theorem addA_data {R : Type} [Add R] (a b : NDArray R) (idx : List Nat) :
    (addA a b).data idx = a.data (bcIdx a.shape idx) + b.data (bcIdx b.shape idx) := rfl

theorem mulA_data {R : Type} [Mul R] (a b : NDArray R) (idx : List Nat) :
    (mulA a b).data idx = a.data (bcIdx a.shape idx) * b.data (bcIdx b.shape idx) := rfl

theorem divA_data {R : Type} [Div R] (a b : NDArray R) (idx : List Nat) :
    (divA a b).data idx = a.data (bcIdx a.shape idx) / b.data (bcIdx b.shape idx) := rfl

theorem addA_shape {R : Type} [Add R] (a b : NDArray R) :
    (addA a b).shape = (broadcastShape a.shape b.shape).getD [] := rfl

theorem mulA_shape {R : Type} [Mul R] (a b : NDArray R) :
    (mulA a b).shape = (broadcastShape a.shape b.shape).getD [] := rfl

theorem scalarA_data {R : Type} (c : R) (idx : List Nat) :
    (scalarA c).data idx = c := rfl

theorem scalarA_shape {R : Type} (c : R) : (scalarA c).shape = [] := rfl

theorem emap_data {R : Type} (f : R → R) (a : NDArray R) (idx : List Nat) :
    (emap f a).data idx = f (a.data idx) := rfl

theorem emap_shape {R : Type} (f : R → R) (a : NDArray R) :
    (emap f a).shape = a.shape := rfl

theorem splitLo_data {R : Type} (a : NDArray R) (idx : List Nat) :
    (splitLo a).data idx = a.data idx := rfl

theorem splitHi_data {R : Type} (a : NDArray R) (idx : List Nat) :
    (splitHi a).data idx =
      a.data (idx.dropLast ++ [idx.getLastD 0 + a.shape.getLastD 0 / 2]) := rfl

theorem insertMidOnes_data {R : Type} (k : Nat) (a : NDArray R) (idx : List Nat) :
    (insertMidOnes k a).data idx = a.data [idx.headD 0, idx.getLastD 0] := rfl

theorem dense_emap_data {R : Type} [Field R] (f : Nat) (w : Nat → Nat → R)
    (bias : Nat → R) (act : R → R) (emb : NDArray R) (n e i jj : Nat)
    (hemb : emb.shape = [n, e]) :
    (dense f w bias (emap act emb)).data [i, jj] =
      (Finset.range e).sum (fun j => act (emb.data [i, j]) * w j jj) + bias jj := by
  simp [dense, emap, hemb]

/-- C5: FiLM-style conditioning.  For every `x` with channel count `c` and
every 2-D embedding `emb`, `AdaptiveScale.__call__` returns
`x * (scale + 1) + bias` where `scale` and `bias` are the two halves (split
along the last axis) of a dense affine projection of `act_fun(emb)` to `2*c`
features, broadcast channel-wise over `x`; an embedding whose ndim is not 2
fails the assertion. -/
theorem adaptive_scale_film {R : Type} [Field R] (act : R → R) (w : Nat → Nat → R)
    (bias : Nat → R) (x emb : NDArray R) (n e c : Nat) (sp : List Nat)
    (hx : x.shape = n :: (sp ++ [c])) (hemb : emb.shape = [n, e]) :
    (∃ out : NDArray R,
      adaptiveScale act w bias x emb = Except.ok out ∧
      out.shape = n :: (sp ++ [c]) ∧
      ∀ i0 jc mid, validIdx (n :: (sp ++ [c])) (i0 :: (mid ++ [jc])) = true →
        out.data (i0 :: (mid ++ [jc])) =
          x.data (i0 :: (mid ++ [jc])) *
              (((Finset.range e).sum (fun j => act (emb.data [i0, j]) * w j jc) +
                bias jc) + 1) +
            ((Finset.range e).sum (fun j => act (emb.data [i0, j]) * w j (jc + c)) +
              bias (jc + c))) ∧
    (∀ emb2 : NDArray R, emb2.ndim ≠ 2 →
      adaptiveScale act w bias x emb2 =
        Except.error "The dimension of the embedding needs to be two") := by
  constructor
  · have hfeat : x.shape.getLastD 0 = c := by
      rw [hx, show n :: (sp ++ [c]) = (n :: sp) ++ [c] from rfl]
      exact List.getLastD_concat _ _ _
    have hndim2 : emb.ndim = 2 := by simp [ndim, hemb]
    have hk : x.ndim - 2 = sp.length := by simp [ndim, hx]
    have ha : (emap act emb).shape = [n, e] := by simp [emap, hemb]
    have hscp : (dense (x.shape.getLastD 0 * 2) w bias (emap act emb)).shape
        = [n, c * 2] := by
      simp only [dense, ha, hfeat]
      rfl
    set scp := dense (x.shape.getLastD 0 * 2) w bias (emap act emb) with hscpdef
    set spA := insertMidOnes (x.ndim - 2) scp with hspAdef
    have hspA : spA.shape = (n :: List.replicate sp.length 1) ++ [c * 2] := by
      rw [hspAdef]
      simp [insertMidOnes, hscp, hk]
    have hc2 : c * 2 / 2 = c := Nat.mul_div_cancel c (by norm_num)
    have hspl : spA.shape.getLastD 0 = c * 2 := by
      rw [hspA]
      exact List.getLastD_concat _ _ _
    have hlo : (splitLo spA).shape = n :: (List.replicate sp.length 1 ++ [c]) := by
      simp only [splitLo, hspA]
      rw [List.dropLast_concat, List.getLastD_concat, hc2]
      rfl
    have hhi : (splitHi spA).shape = n :: (List.replicate sp.length 1 ++ [c]) := by
      simp only [splitHi, hspA]
      rw [List.dropLast_concat, List.getLastD_concat, hc2]
      rfl
    have hsc1 : (addA (splitLo spA) (scalarA (1 : R))).shape
        = n :: (List.replicate sp.length 1 ++ [c]) := by
      rw [addA_shape, hlo, scalarA_shape, broadcastShape_nil_right]
      rfl
    have hmulp : (mulA x (addA (splitLo spA) (scalarA (1 : R)))).shape
        = n :: (sp ++ [c]) := by
      rw [mulA_shape, hx, hsc1, broadcastShape_midones]
      rfl
    refine ⟨addA (mulA x (addA (splitLo spA) (scalarA 1))) (splitHi spA), ?_, ?_, ?_⟩
    · have hne : ¬(emb.ndim ≠ 2) := by rw [hndim2]; simp
      simp only [adaptiveScale, if_neg hne]
    · rw [addA_shape, hmulp, hhi, broadcastShape_midones]
      rfl
    · intro i0 jc mid hv
      have hv1 := (validIdx_cons n (sp ++ [c]) i0 (mid ++ [jc])).mp hv
      have hi0 : i0 < n := hv1.1
      have hsl := validIdx_split_last sp mid c jc hv1.2
      have hjc : jc < c := hsl.2
      have hmid : mid.length = sp.length := validIdx_length sp mid hsl.1
      have hbz := bcIdx_midones n c sp i0 jc mid hi0 hjc hmid
      have hbz2 : bcIdx (n :: (List.replicate sp.length 1 ++ [c]))
          (i0 :: (List.replicate sp.length 0 ++ [jc]))
          = i0 :: (List.replicate sp.length 0 ++ [jc]) := by
        have h3 := bcIdx_midones n c (List.replicate sp.length 1) i0 jc
          (List.replicate sp.length 0) hi0 hjc (by simp)
        simpa using h3
      have hglast : (i0 :: (List.replicate sp.length 0 ++ [jc])).getLastD 0 = jc := by
        rw [show i0 :: (List.replicate sp.length 0 ++ [jc])
            = (i0 :: List.replicate sp.length 0) ++ [jc] from rfl]
        exact List.getLastD_concat _ _ _
      have hdropl : (i0 :: (List.replicate sp.length 0 ++ [jc])).dropLast
          = i0 :: List.replicate sp.length 0 := by
        rw [show i0 :: (List.replicate sp.length 0 ++ [jc])
            = (i0 :: List.replicate sp.length 0) ++ [jc] from rfl]
        exact List.dropLast_concat
      rw [addA_data, hmulp, hhi, bcIdx_valid _ _ hv, hbz]
      rw [mulA_data, hx, hsc1, bcIdx_valid _ _ hv, hbz]
      rw [addA_data, hlo, scalarA_shape, hbz2, bcIdx_nil, scalarA_data]
      rw [splitLo_data, splitHi_data, hglast, hdropl, hspl, hc2]
      rw [hspAdef, insertMidOnes_data, insertMidOnes_data]
      rw [List.headD_cons, hglast]
      rw [show ((i0 :: List.replicate sp.length 0) ++ [jc + c]).getLastD 0 = jc + c from
        List.getLastD_concat _ _ _]
      rw [show ((i0 :: List.replicate sp.length 0) ++ [jc + c]).headD 0 = i0 from rfl]
      rw [hscpdef, dense_emap_data _ w bias act emb n e i0 jc hemb,
        dense_emap_data _ w bias act emb n e i0 (jc + c) hemb]
  · intro emb2 h2
    simp [adaptiveScale, h2]

/-- A concrete input for the FiLM witness: batch 1, one spatial dim of 2,
one channel. -/
def wX5 : NDArray ℚ := ⟨[1, 2, 1], fun _ => 1⟩

/-- A concrete 2-D embedding for the FiLM witness. -/
def wEmb5 : NDArray ℚ := ⟨[1, 1], fun _ => 1⟩

/-- A concrete dense kernel for witnesses. -/
def wW : Nat → Nat → ℚ := fun _ _ => 1

/-- A concrete dense bias for witnesses. -/
def wB : Nat → ℚ := fun _ => 0

theorem adaptive_scale_film_witness :
    (∃ out : NDArray ℚ,
      adaptiveScale id wW wB wX5 wEmb5 = Except.ok out ∧
      out.shape = 1 :: ([2] ++ [1]) ∧
      ∀ i0 jc mid, validIdx (1 :: ([2] ++ [1])) (i0 :: (mid ++ [jc])) = true →
        out.data (i0 :: (mid ++ [jc])) =
          wX5.data (i0 :: (mid ++ [jc])) *
              (((Finset.range 1).sum (fun j => id (wEmb5.data [i0, j]) * wW j jc) +
                wB jc) + 1) +
            ((Finset.range 1).sum (fun j => id (wEmb5.data [i0, j]) * wW j (jc + 1)) +
              wB (jc + 1))) ∧
    (∀ emb2 : NDArray ℚ, emb2.ndim ≠ 2 →
      adaptiveScale id wW wB wX5 emb2 =
        Except.error "The dimension of the embedding needs to be two") :=
  adaptive_scale_film id wW wB wX5 wEmb5 1 1 1 [2] rfl rfl

/- ### More unfolding lemmas for the Fourier embedding -/

theorem concatLast_shape {R : Type} (a b : NDArray R) :
    (concatLast a b).shape =
      a.shape.dropLast ++ [a.shape.getLastD 0 + b.shape.getLastD 0] := rfl

theorem concatLast_data {R : Type} (a b : NDArray R) (idx : List Nat) :
    (concatLast a b).data idx =
      if idx.getLastD 0 < a.shape.getLastD 0 then a.data idx
      else b.data (idx.dropLast ++ [idx.getLastD 0 - a.shape.getLastD 0]) := rfl

theorem expandRow_data {R : Type} (a : NDArray R) (idx : List Nat) :
    (expandRow a).data idx = a.data [idx.getLastD 0] := rfl

theorem expandCol_data {R : Type} (a : NDArray R) (idx : List Nat) :
    (expandCol a).data idx = a.data [idx.headD 0] := rfl

theorem dense_shape {R : Type} [Field R] (f : Nat) (w : Nat → Nat → R)
    (bias : Nat → R) (a : NDArray R) :
    (dense f w bias a).shape = a.shape.dropLast ++ [f] := rfl

theorem broadcastShape_rowcol (d2 n : Nat) :
    broadcastShape [1, d2] [n, 1] = some [n, d2] := by
  rw [broadcastShape_eq_foldr _ _ (by simp)]
  simp [bcDim_one_left, bcDim_one_right, consDim]

theorem bcIdx_row (d2 i j : Nat) (hj : j < d2) : bcIdx [1, d2] [i, j] = [0, j] := by
  simp [bcIdx, ite_dim_eq d2 j hj]

theorem bcIdx_col (n i j : Nat) (hi : i < n) : bcIdx [n, 1] [i, j] = [i, 0] := by
  simp [bcIdx, ite_dim_eq n i hi]

theorem xf_data {R : Type} [Field R] (piC : R) (exp lg : R → R) (dims : Nat)
    (max_freq : R) (x : NDArray R) (n i j : Nat) (hx : x.shape = [n])
    (hi : i < n) (hj : j < dims / 2) :
    (mulA (mulA (scalarA piC) (expandRow (emap exp (linspaceA (lg max_freq) (dims / 2)))))
        (expandCol x)).data [i, j] =
      piC * exp ((linspaceA (lg max_freq) (dims / 2)).data [j]) * x.data [i] := by
  rw [mulA_data]
  rw [show (mulA (scalarA piC)
      (expandRow (emap exp (linspaceA (lg max_freq) (dims / 2))))).shape
      = [1, dims / 2] from by
    rw [mulA_shape, scalarA_shape]
    rw [show (expandRow (emap exp (linspaceA (lg max_freq) (dims / 2)))).shape
        = [1, dims / 2] from rfl]
    rw [broadcastShape_nil_left]
    rfl]
  rw [show (expandCol x).shape = [n, 1] from by simp [expandCol, hx]]
  rw [bcIdx_row _ i j hj, bcIdx_col n i j hi]
  rw [mulA_data, scalarA_shape, bcIdx_nil, scalarA_data]
  rw [show (expandRow (emap exp (linspaceA (lg max_freq) (dims / 2)))).shape
      = [1, dims / 2] from rfl]
  rw [bcIdx_row _ 0 j hj]
  rw [expandRow_data, expandCol_data]
  rfl

/-- C6: for every rank-1 input `x` of length `n`, `FourierEmbedding.__call__`
computes sin and cos features at the `dims // 2` frequencies
`pi * exp(linspace(0, log(max_freq), dims // 2))` applied to `x`,
concatenated along the last axis; with projection enabled the result is
passed through two dense layers and has shape `(n, dims)`, while with
projection disabled the output has shape `(n, 2 * (dims // 2))`. -/
theorem fourier_embedding_spec {R : Type} [Field R] (piC : R)
    (exp sin cos lg act : R → R) (dims : Nat) (max_freq : R)
    (w1 : Nat → Nat → R) (b1 : Nat → R) (w2 : Nat → Nat → R) (b2 : Nat → R)
    (x : NDArray R) (n : Nat) (hx : x.shape = [n]) :
    (∃ out : NDArray R,
      fourierEmbedding piC exp sin cos lg act dims max_freq false w1 b1 w2 b2 x =
        Except.ok out ∧
      out.shape = [n, 2 * (dims / 2)] ∧
      ∀ i j, i < n → j < 2 * (dims / 2) →
        out.data [i, j] =
          if j < dims / 2 then
            sin (piC * exp ((linspaceA (lg max_freq) (dims / 2)).data [j]) * x.data [i])
          else
            cos (piC * exp ((linspaceA (lg max_freq) (dims / 2)).data [j - dims / 2]) *
              x.data [i])) ∧
    (∃ out2 : NDArray R,
      fourierEmbedding piC exp sin cos lg act dims max_freq true w1 b1 w2 b2 x =
        Except.ok out2 ∧ out2.shape = [n, dims]) := by
  have hnd : ¬(x.ndim ≠ 1) := by simp [ndim, hx]
  have hxf : (mulA (mulA (scalarA piC)
      (expandRow (emap exp (linspaceA (lg max_freq) (dims / 2))))) (expandCol x)).shape
      = [n, dims / 2] := by
    rw [mulA_shape]
    rw [show (mulA (scalarA piC)
        (expandRow (emap exp (linspaceA (lg max_freq) (dims / 2))))).shape
        = [1, dims / 2] from by
      rw [mulA_shape, scalarA_shape]
      rw [show (expandRow (emap exp (linspaceA (lg max_freq) (dims / 2)))).shape
          = [1, dims / 2] from rfl]
      rw [broadcastShape_nil_left]
      rfl]
    rw [show (expandCol x).shape = [n, 1] from by simp [expandCol, hx]]
    rw [broadcastShape_rowcol]
    rfl
  have hcat : (concatLast
      (emap sin (mulA (mulA (scalarA piC)
        (expandRow (emap exp (linspaceA (lg max_freq) (dims / 2))))) (expandCol x)))
      (emap cos (mulA (mulA (scalarA piC)
        (expandRow (emap exp (linspaceA (lg max_freq) (dims / 2))))) (expandCol x)))).shape
      = [n, dims / 2 + dims / 2] := by
    rw [concatLast_shape, emap_shape, emap_shape, hxf]
    rfl
  constructor
  · refine ⟨concatLast
      (emap sin (mulA (mulA (scalarA piC)
        (expandRow (emap exp (linspaceA (lg max_freq) (dims / 2))))) (expandCol x)))
      (emap cos (mulA (mulA (scalarA piC)
        (expandRow (emap exp (linspaceA (lg max_freq) (dims / 2))))) (expandCol x))),
      ?_, ?_, ?_⟩
    · simp only [fourierEmbedding, if_neg hnd]
      rfl
    · rw [hcat, two_mul]
    · intro i j hi hj
      rw [concatLast_data, emap_shape, hxf]
      rw [show ([i, j] : List Nat).getLastD 0 = j from rfl]
      rw [show ([n, dims / 2] : List Nat).getLastD 0 = dims / 2 from rfl]
      by_cases hj2 : j < dims / 2
      · rw [if_pos hj2, if_pos hj2, emap_data,
          xf_data piC exp lg dims max_freq x n i j hx hi hj2]
      · rw [if_neg hj2, if_neg hj2]
        rw [show ([i, j] : List Nat).dropLast ++ [j - dims / 2]
            = [i, j - dims / 2] from rfl]
        rw [emap_data,
          xf_data piC exp lg dims max_freq x n i (j - dims / 2) hx hi (by omega)]
  · refine ⟨dense dims w2 b2 (emap act (dense (2 * dims) w1 b1 (concatLast
      (emap sin (mulA (mulA (scalarA piC)
        (expandRow (emap exp (linspaceA (lg max_freq) (dims / 2))))) (expandCol x)))
      (emap cos (mulA (mulA (scalarA piC)
        (expandRow (emap exp (linspaceA (lg max_freq) (dims / 2))))) (expandCol x)))))),
      ?_, ?_⟩
    · simp only [fourierEmbedding, if_neg hnd]
      rfl
    · rw [dense_shape, emap_shape, dense_shape, hcat]
      rfl

/-- A concrete rank-1 input for the Fourier witness. -/
def wXF : NDArray ℚ := ⟨[1], fun _ => 1⟩

theorem fourier_embedding_spec_witness :
    (∃ out : NDArray ℚ,
      fourierEmbedding 1 id id id id id 4 1 false wW wB wW wB wXF =
        Except.ok out ∧
      out.shape = [1, 2 * (4 / 2)] ∧
      ∀ i j, i < 1 → j < 2 * (4 / 2) →
        out.data [i, j] =
          if j < 4 / 2 then
            id ((1 : ℚ) * id ((linspaceA (id 1) (4 / 2)).data [j]) * wXF.data [i])
          else
            id ((1 : ℚ) * id ((linspaceA (id 1) (4 / 2)).data [j - 4 / 2]) *
              wXF.data [i])) ∧
    (∃ out2 : NDArray ℚ,
      fourierEmbedding 1 id id id id id 4 1 true wW wB wW wB wXF =
        Except.ok out2 ∧ out2.shape = [1, 4]) :=
  fourier_embedding_spec 1 id id id id id 4 1 wW wB wW wB wXF 1 rfl

/- ### `evaluate.py`: `CondSamplingBenchmark` (value level) -/

/-- The error message of `CondSamplingBenchmark.__post_init__` (note it
states the divisibility relation in the reversed direction). -/
def benchmarkError (num_samples_per_cond sample_batch_size : Nat) : String :=
  "`sample_batch_size` (" ++ toString sample_batch_size ++
    ") must be divisible by `num_samples_per_cond` (" ++
    toString num_samples_per_cond ++ ")."

/-- `CondSamplingBenchmark.__post_init__` (lines 58-63): constructing the
benchmark validates that `num_samples_per_cond % sample_batch_size == 0`,
returning the pair of attributes on success. -/
def condSamplingBenchmarkInit (num_samples_per_cond sample_batch_size : Nat) :
    Except String (Nat × Nat) :=
  if num_samples_per_cond % sample_batch_size ≠ 0 then
    Except.error (benchmarkError num_samples_per_cond sample_batch_size)
  else
    Except.ok (num_samples_per_cond, sample_batch_size)

/-- Modelled from the spec: `jax.random.split(rng, num)` produces `num`
fresh keys, pairwise distinct, derived from `rng`; keys are modelled as the
pair of the parent key and the split index. -/
def splitRng (rng : Nat) (num : Nat) : List (Nat × Nat) :=
  (List.range num).map (fun i => (rng, i))

/-- `jnp.squeeze(v, axis=0)`: drops the leading axis, which must have
size 1. -/
def squeeze0 {R : Type} (v : NDArray R) : Except String (NDArray R) :=
  if v.shape.headD 0 = 1 then
    Except.ok ⟨v.shape.drop 1, fun idx => v.data (0 :: idx)⟩
  else
    Except.error "cannot select an axis to squeeze out which has size not equal to one"

/-- `jax.tree_map(squeeze_fn, batch["cond"])` over a dictionary of arrays. -/
def squeezeTree {R : Type} :
    List (String × NDArray R) → Except String (List (String × NDArray R))
  | [] => Except.ok []
  | (k, v) :: rest =>
      match squeeze0 v, squeezeTree rest with
      | Except.ok v2, Except.ok r2 => Except.ok ((k, v2) :: r2)
      | Except.error e, _ => Except.error e
      | _, Except.error e => Except.error e

/-- `jax.lax.map(f, rngs)`: stacks the per-key outputs along a new leading
axis. -/
def stackA {R : Type} [Inhabited R] (l : List (NDArray R)) : NDArray R :=
  ⟨l.length :: (l.headD ⟨[], fun _ => default⟩).shape,
   fun idx => (l.getD (idx.headD 0) ⟨[], fun _ => default⟩).data (idx.drop 1)⟩

/-- `jnp.reshape(samples, (1, -1) + samples.shape[2:])`: merges the two
leading axes (row-major) and prepends a singleton axis. -/
def reshapeMerge2 {R : Type} (a : NDArray R) : NDArray R :=
  ⟨1 :: (a.shape.headD 0 * (a.shape.drop 1).headD 0) :: a.shape.drop 2,
   fun idx =>
     a.data ((idx.drop 1).headD 0 / (a.shape.drop 1).headD 0 ::
       (idx.drop 1).headD 0 % (a.shape.drop 1).headD 0 :: idx.drop 2)⟩

/-- `CondSamplingBenchmark.run_batch_inference` (lines 65-95): the rng is
split into `num_samples_per_cond // sample_batch_size` keys, the sampler is
invoked once per key with `num_samples = sample_batch_size` and the squeezed
condition, and the stacked samples are reshaped to leading dimensions
`(1, num_samples_per_cond)`. -/
def runBatchInference {R : Type} [Inhabited R]
    (num_samples_per_cond sample_batch_size : Nat)
    (inference_fn : Nat → Nat × Nat → List (String × NDArray R) → NDArray R)
    (cond : List (String × NDArray R)) (rng : Nat) :
    Except String (NDArray R) :=
  let num_batches := num_samples_per_cond / sample_batch_size
  let rngs := splitRng rng num_batches
  match squeezeTree cond with
  | Except.error e => Except.error e
  | Except.ok cond2 =>
      let samples := stackA (rngs.map (fun k => inference_fn sample_batch_size k cond2))
      Except.ok (reshapeMerge2 samples)

theorem getD_map_range {α : Type} (g : Nat → α) (m i : Nat) (d : α) (hi : i < m) :
    ((List.range m).map g).getD i d = g i := by
  rw [List.getD_eq_getElem?_getD, List.getElem?_map, List.getElem?_range hi]
  rfl

theorem stackA_range_shape {R : Type} [Inhabited R] (g : Nat → NDArray R)
    (m : Nat) (s : List Nat) (hg : ∀ i, (g i).shape = s) (hm : 0 < m) :
    (stackA ((List.range m).map g)).shape = m :: s := by
  obtain ⟨m2, rfl⟩ : ∃ m2, m = m2 + 1 := ⟨m - 1, by omega⟩
  rw [show stackA ((List.range (m2 + 1)).map g)
      = ⟨((List.range (m2 + 1)).map g).length ::
          (((List.range (m2 + 1)).map g).headD ⟨[], fun _ => default⟩).shape,
        fun idx => (((List.range (m2 + 1)).map g).getD (idx.headD 0)
          ⟨[], fun _ => default⟩).data (idx.drop 1)⟩ from rfl]
  rw [List.range_succ_eq_map]
  simp [hg 0]

theorem stackA_range_data {R : Type} [Inhabited R] (g : Nat → NDArray R)
    (m i : Nat) (idx : List Nat) (hi : i < m) :
    (stackA ((List.range m).map g)).data (i :: idx) = (g i).data idx := by
  rw [show (stackA ((List.range m).map g)).data (i :: idx)
      = (((List.range m).map g).getD ((i :: idx).headD 0)
          ⟨[], fun _ => default⟩).data ((i :: idx).drop 1) from rfl]
  rw [List.headD_cons, getD_map_range g m i _ hi]
  rfl

/-- C7: for every benchmark with `num_samples_per_cond` divisible by
`sample_batch_size`, `run_batch_inference` splits the rng into exactly
`num_samples_per_cond // sample_batch_size` distinct keys, invokes the
sampler once per key with `num_samples = sample_batch_size` and the cond
squeezed along axis 0, and returns the stacked samples reshaped so that the
result has leading dimensions `(1, num_samples_per_cond)` followed by the
per-sample dimensions. -/
theorem run_batch_inference_spec {R : Type} [Inhabited R]
    (nspc bs : Nat) (dims : List Nat)
    (inference_fn : Nat → Nat × Nat → List (String × NDArray R) → NDArray R)
    (cond cond2 : List (String × NDArray R)) (rng : Nat)
    (hbs : 0 < bs) (hpos : 0 < nspc) (hdvd : bs ∣ nspc)
    (hsq : squeezeTree cond = Except.ok cond2)
    (hf : ∀ k, (inference_fn bs k cond2).shape = bs :: dims) :
    (splitRng rng (nspc / bs)).length = nspc / bs ∧
    (splitRng rng (nspc / bs)).Nodup ∧
    ∃ out : NDArray R,
      runBatchInference nspc bs inference_fn cond rng = Except.ok out ∧
      out.shape = 1 :: nspc :: dims ∧
      ∀ j rest2, j < nspc →
        out.data (0 :: j :: rest2) =
          (inference_fn bs (rng, j / bs) cond2).data ((j % bs) :: rest2) := by
  have hnum : 0 < nspc / bs := Nat.div_pos (Nat.le_of_dvd hpos hdvd) hbs
  have hmap : (splitRng rng (nspc / bs)).map
      (fun k => inference_fn bs k cond2) =
      (List.range (nspc / bs)).map (fun i => inference_fn bs (rng, i) cond2) := by
    rw [splitRng, List.map_map]
    rfl
  have hstacks : (stackA ((splitRng rng (nspc / bs)).map
      (fun k => inference_fn bs k cond2))).shape = (nspc / bs) :: bs :: dims := by
    rw [hmap]
    exact stackA_range_shape _ _ _ (fun i => hf (rng, i)) hnum
  refine ⟨by simp [splitRng], ?_, ?_⟩
  · exact List.Nodup.map (fun a b h => by simpa using h) (List.nodup_range _)
  · refine ⟨reshapeMerge2 (stackA ((splitRng rng (nspc / bs)).map
        (fun k => inference_fn bs k cond2))), ?_, ?_, ?_⟩
    · rw [runBatchInference]
      rw [hsq]
    · rw [show (reshapeMerge2 (stackA ((splitRng rng (nspc / bs)).map
          (fun k => inference_fn bs k cond2)))).shape
          = 1 :: ((stackA ((splitRng rng (nspc / bs)).map
              (fun k => inference_fn bs k cond2))).shape.headD 0 *
            ((stackA ((splitRng rng (nspc / bs)).map
              (fun k => inference_fn bs k cond2))).shape.drop 1).headD 0) ::
            (stackA ((splitRng rng (nspc / bs)).map
              (fun k => inference_fn bs k cond2))).shape.drop 2 from rfl]
      rw [hstacks]
      simp [Nat.div_mul_cancel hdvd]
    · intro j rest2 hj
      rw [show (reshapeMerge2 (stackA ((splitRng rng (nspc / bs)).map
          (fun k => inference_fn bs k cond2)))).data (0 :: j :: rest2)
          = (stackA ((splitRng rng (nspc / bs)).map
              (fun k => inference_fn bs k cond2))).data
              (j / ((stackA ((splitRng rng (nspc / bs)).map
                (fun k => inference_fn bs k cond2))).shape.drop 1).headD 0 ::
               j % ((stackA ((splitRng rng (nspc / bs)).map
                (fun k => inference_fn bs k cond2))).shape.drop 1).headD 0 :: rest2)
          from rfl]
      rw [hstacks]
      rw [show ((((nspc / bs) :: bs :: dims : List Nat)).drop 1).headD 0 = bs from rfl]
      rw [hmap]
      have hjdiv : j / bs < nspc / bs := Nat.div_lt_div_of_lt_of_dvd hdvd hj
      rw [stackA_range_data _ _ _ _ hjdiv]

/-- A concrete sampler for the batched-inference witness. -/
def wInf : Nat → Nat × Nat → List (String × NDArray ℚ) → NDArray ℚ :=
  fun _ _ _ => ⟨[1], fun _ => 0⟩

theorem run_batch_inference_spec_witness :
    (splitRng 0 (2 / 1)).length = 2 / 1 ∧
    (splitRng 0 (2 / 1)).Nodup ∧
    ∃ out : NDArray ℚ,
      runBatchInference 2 1 wInf [] 0 = Except.ok out ∧
      out.shape = 1 :: 2 :: [] ∧
      ∀ j rest2, j < 2 →
        out.data (0 :: j :: rest2) = (wInf 1 (0, j / 1) []).data ((j % 1) :: rest2) :=
  run_batch_inference_spec 2 1 [] wInf [] [] 0 (by decide) (by decide)
    (by decide) rfl (fun _ => rfl)

/-- C9: constructing a `CondSamplingBenchmark` raises `ValueError` if and
only if `num_samples_per_cond` is not divisible by `sample_batch_size`; the
error message states the divisibility relation in the reversed direction
(`sample_batch_size` ... must be divisible by ... `num_samples_per_cond`). -/
theorem cond_sampling_benchmark_init_iff (n b : Nat) :
    ((condSamplingBenchmarkInit n b).isOk = true ↔ n % b = 0) ∧
    (n % b ≠ 0 → condSamplingBenchmarkInit n b = Except.error (benchmarkError n b)) ∧
    benchmarkError n b =
      "`sample_batch_size` (" ++ toString b ++
        ") must be divisible by `num_samples_per_cond` (" ++ toString n ++ ")." := by
  refine ⟨?_, ?_, rfl⟩
  · by_cases h : n % b = 0 <;>
      simp [condSamplingBenchmarkInit, h, Except.isOk, Except.toBool]
  · intro h
    simp [condSamplingBenchmarkInit, h]

theorem cond_sampling_benchmark_init_witness :
    ((condSamplingBenchmarkInit 5 2).isOk = true ↔ 5 % 2 = 0) ∧
    (5 % 2 ≠ 0 → condSamplingBenchmarkInit 5 2 = Except.error (benchmarkError 5 2)) ∧
    benchmarkError 5 2 =
      "`sample_batch_size` (" ++ toString 2 ++
        ") must be divisible by `num_samples_per_cond` (" ++ toString 5 ++ ")." :=
  cond_sampling_benchmark_init_iff 5 2

/- ### Shape-level semantics of the U-Net architecture -/

/-- A full array shape: batch dimension, spatial dimensions, channels. -/
abbrev Shp := List Nat

/-- Shape of `layers.ConvLayer(features=f)`.  Modelled from the spec: a
same-padding convolution preserves all but the channel dimension. -/
def convShape (f : Nat) (s : Shp) : Shp := s.dropLast ++ [f]

/-- Shape of `layers.DownsampleConv(features=f, ratios=(r,) * kernel_dim)`.
Modelled from the spec: a strided convolution dividing every spatial
dimension by the ratio; the spatial dimensions must be divisible. -/
def downsampleConvShape (f r : Nat) (s : Shp) : Except String Shp :=
  if ((s.drop 1).dropLast).all (fun d => d % r = 0) then
    Except.ok (s.headD 0 :: ((s.drop 1).dropLast).map (fun d => d / r) ++ [f])
  else
    Except.error "downsample: spatial dimensions not divisible by ratio"

/-- Shape of `layers.CombineResidualWithSkip`.  Modelled from the spec: adds
residual and skip, projecting the skip channel count when it disagrees with
the residual one; all other dimensions must match. -/
def combineShape (residual skip : Shp) : Except String Shp :=
  if residual.dropLast = skip.dropLast then Except.ok residual
  else Except.error "combine: residual and skip shapes do not match"

/-- Shape of `ConvBlock`: the channel count becomes `out_channels` and all
other dimensions are preserved. -/
def convBlockShape (ch : Nat) (s : Shp) : Shp := convShape ch s

/-- Shape of `layers.channel_to_space(block_shape=(r,) * kd)`.  Modelled
from the spec: each spatial dimension is multiplied by `r` and the channel
count is divided by `r ^ kd`. -/
def channelToSpaceShape (r kd : Nat) (s : Shp) : Except String Shp :=
  if s.getLastD 0 % r ^ kd = 0 then
    Except.ok (s.headD 0 :: ((s.drop 1).dropLast).map (fun d => d * r) ++
      [s.getLastD 0 / r ^ kd])
  else
    Except.error "channel_to_space: channels not divisible by block size"

/-- Shape of `layers.FilteredResize(output_size=os)`.  Modelled from the
spec and its two call sites: `os` replaces the dimensions immediately
preceding the channel dimension (right-aligned). -/
def resizeShape (os : Shp) (s : Shp) : Shp :=
  s.take (s.length - os.length - 1) ++ os ++ [s.getLastD 0]

/-- One resolution level of `DStack.__call__` after its downsampling
convolution: `num_res_blocks` ConvBlocks, each optionally followed by an
attention block and a `ResConv1x` (both shape-preserving), with the features
appended to the skip list after every block; the trace records
`(level, block_id)` for every attention application. -/
def dstackBlocks (ch : Nat) (attn : Bool) (level : Nat) :
    List Nat → Shp → Shp × List Shp × List (Nat × Nat)
  | [], _h => (_h, [], [])
  | bid :: rest, h =>
      let h2 := convBlockShape ch h
      let res := dstackBlocks ch attn level rest h2
      (res.1, h2 :: res.2.1, (if attn then [(level, bid)] else []) ++ res.2.2)

/-- The level loop of `DStack.__call__`; `n` is `len(num_channels)` and
attention fires only when `use_attention and level == n - 1`. -/
def dstackGo (useAttn : Bool) (n : Nat) :
    Nat → List (Nat × Nat × Nat) → Shp →
      Except String (Shp × List Shp × List (Nat × Nat))
  | _, [], h => Except.ok (h, [], [])
  | level, (ch, nb, r) :: rest, h =>
      match downsampleConvShape ch r h with
      | Except.error e => Except.error e
      | Except.ok h1 =>
          let res := dstackBlocks ch (useAttn && level == n - 1) level (List.range nb) h1
          match dstackGo useAttn n (level + 1) rest res.1 with
          | Except.error e => Except.error e
          | Except.ok (h3, sk2, tr2) =>
              Except.ok (h3, res.2.1 ++ sk2, res.2.2 ++ tr2)

/-- `DStack.__call__` (lines 303-359) at the shape level: an initial conv
with 128 features whose output is the first skip, then the levels. -/
def dstackShape (useAttn : Bool) (levels : List (Nat × Nat × Nat)) (x : Shp) :
    Except String (Shp × List Shp × List (Nat × Nat)) :=
  let h := convShape 128 x
  match dstackGo useAttn levels.length 0 levels h with
  | Except.error e => Except.error e
  | Except.ok (hf, sk, tr) => Except.ok (hf, h :: sk, tr)

/-- `skips.pop()`: removes and returns the last element of the list. -/
def popLast (l : List Shp) : Except String (Shp × List Shp) :=
  match l.getLast? with
  | none => Except.error "pop from empty list"
  | some s => Except.ok (s, l.dropLast)

/-- The block loop of one `UStack.__call__` level: each block pops a skip,
combines it with the running features, and applies a ConvBlock (and, when
`attn`, a shape-preserving attention block plus `ResConv1x`). -/
def ustackBlocks (ch : Nat) (attn : Bool) (level : Nat) :
    List Nat → Shp → List Shp → Except String (Shp × List Shp × List (Nat × Nat))
  | [], h, skips => Except.ok (h, skips, [])
  | bid :: rest, h, skips =>
      match popLast skips with
      | Except.error e => Except.error e
      | Except.ok (s, skips2) =>
          match combineShape h s with
          | Except.error e => Except.error e
          | Except.ok h1 =>
              let h2 := convBlockShape ch h1
              match ustackBlocks ch attn level rest h2 skips2 with
              | Except.error e => Except.error e
              | Except.ok (h3, skips3, tr) =>
                  Except.ok (h3, skips3, (if attn then [(level, bid)] else []) ++ tr)

/-- The level loop of `UStack.__call__`: blocks, then the upsampling
convolution to `r ^ kernel_dim * channel` features followed by
`channel_to_space`; attention fires only when `use_attention and
level == 0` (opposite to DStack). -/
def ustackGo (useAttn : Bool) (kd : Nat) :
    Nat → List (Nat × Nat × Nat) → Shp → List Shp →
      Except String (Shp × List Shp × List (Nat × Nat))
  | _, [], h, skips => Except.ok (h, skips, [])
  | level, (ch, nb, r) :: rest, h, skips =>
      match ustackBlocks ch (useAttn && level == 0) level (List.range nb) h skips with
      | Except.error e => Except.error e
      | Except.ok (h1, skips1, tr1) =>
          let h2 := convShape (r ^ kd * ch) h1
          match channelToSpaceShape r kd h2 with
          | Except.error e => Except.error e
          | Except.ok h3 =>
              match ustackGo useAttn kd (level + 1) rest h3 skips1 with
              | Except.error e => Except.error e
              | Except.ok (h4, skips4, tr2) => Except.ok (h4, skips4, tr1 ++ tr2)

/-- `UStack.__call__` (lines 392-451) at the shape level: the levels, then a
final skip combine and an output convolution with 128 features. -/
def ustackShape (useAttn : Bool) (levels : List (Nat × Nat × Nat)) (x : Shp)
    (skips : List Shp) : Except String (Shp × List Shp × List (Nat × Nat)) :=
  match ustackGo useAttn (x.length - 2) 0 levels x skips with
  | Except.error e => Except.error e
  | Except.ok (h, sk, tr) =>
      match popLast sk with
      | Except.error e => Except.error e
      | Except.ok (s, sk2) =>
          match combineShape h s with
          | Except.error e => Except.error e
          | Except.ok h1 => Except.ok (convShape 128 h1, sk2, tr)

/-- `MergeChannelCond.__call__` (lines 242-281) at the shape level: every
entry of `cond` is resized to `x.shape[:-1]`, layer-normalised,
swish-activated (both shape-preserving), convolved to `embed_dim` channels
and concatenated onto `x` along the channel axis; the rank-mismatch
`ValueError` is checked only for keys starting with `"channel:"`. -/
def mergeChannelCondShape (embed_dim : Nat) :
    Shp → List (String × Shp) → Except String Shp
  | x, [] => Except.ok x
  | x, (key, value) :: rest =>
      if key.startsWith "channel:" && value.length != x.length then
        Except.error ("Channel condition `" ++ key ++
          "` does not have the same ndim as x!")
      else
        let v2 := convShape embed_dim (resizeShape x.dropLast value)
        if v2.dropLast = x.dropLast then
          mergeChannelCondShape embed_dim
            (x.dropLast ++ [x.getLastD 0 + v2.getLastD 0]) rest
        else
          Except.error "concatenate: shapes do not match"

/-- The shape-relevant attributes of `UNet`. -/
structure UNetCfg where
  out_channels : Nat
  resize_to_shape : Option (List Nat)
  num_channels : List Nat
  downsample_ratio : List Nat
  num_blocks : Nat
  use_attention : Bool
  cond_embed_dim : Nat

/-- The per-level `(channel, num_res_blocks, ratio)` triples of the DStack
built by `UNet.__call__` (`num_res_blocks = len(num_channels) *
(num_blocks,)`). -/
def levelsOf (cfg : UNetCfg) : List (Nat × Nat × Nat) :=
  List.zipWith (fun c r => (c, cfg.num_blocks, r))
    cfg.num_channels cfg.downsample_ratio

/-- The per-level triples of the UStack built by `UNet.__call__`: reversed
`num_channels` and reversed `downsample_ratio`. -/
def levelsOfU (cfg : UNetCfg) : List (Nat × Nat × Nat) :=
  List.zipWith (fun c r => (c, cfg.num_blocks, r))
    cfg.num_channels.reverse cfg.downsample_ratio.reverse

/-- `UNet.__call__` (lines 471-555) at the shape level: sigma validation,
optional resize to `resize_to_shape`, channel-cond merge, DStack, UStack
(fed `skips[-1]` and the skip list), output convolution to `out_channels`,
and (when `resize_to_shape` is truthy) a resize back to the input spatial
size. -/
def unetShape (cfg : UNetCfg) (x sigma : Shp) (cond : List (String × Shp)) :
    Except String Shp :=
  let sigma1 := if sigma.length < 1 then [x.headD 0] else sigma
  if sigma1.length ≠ 1 ∨ x.headD 0 ≠ sigma1.headD 0 then
    Except.error sigmaError
  else
    let input_size := (x.drop 1).dropLast
    let x1 := match cfg.resize_to_shape with
      | some rs => resizeShape rs x
      | none => x
    match mergeChannelCondShape cfg.cond_embed_dim x1 cond with
    | Except.error e => Except.error e
    | Except.ok x2 =>
        match dstackShape cfg.use_attention (levelsOf cfg) x2 with
        | Except.error e => Except.error e
        | Except.ok (_, skips, _) =>
            match skips.getLast? with
            | none => Except.error "list index out of range"
            | some xl =>
                match ustackShape cfg.use_attention (levelsOfU cfg) xl skips with
                | Except.error e => Except.error e
                | Except.ok (h, _, _) =>
                    let h2 := convShape cfg.out_channels h
                    Except.ok (match cfg.resize_to_shape with
                      | some rs =>
                          if rs ≠ [] then resizeShape input_size h2 else h2
                      | none => h2)

/- ### Skip-count lemmas (C3) -/

theorem dstackBlocks_count (ch : Nat) (attn : Bool) (level : Nat) (ids : List Nat) :
    ∀ h, (dstackBlocks ch attn level ids h).2.1.length = ids.length := by
  induction ids with
  | nil => intro h; rfl
  | cons bid rest ih =>
      intro h
      simp [dstackBlocks, ih]

theorem dstackGo_skips_len (useAttn : Bool) (n : Nat)
    (levels : List (Nat × Nat × Nat)) :
    ∀ level h hf sk tr,
      dstackGo useAttn n level levels h = Except.ok (hf, sk, tr) →
      sk.length = (levels.map (fun t => t.2.1)).sum := by
  induction levels with
  | nil =>
      intro level h hf sk tr hok
      simp only [dstackGo] at hok
      injection hok with hok2
      injection hok2 with h1 h2
      injection h2 with h3 h4
      simp [← h3]
  | cons trip rest ih =>
      obtain ⟨ch, nb, r⟩ := trip
      intro level h hf sk tr hok
      simp only [dstackGo] at hok
      cases hds : downsampleConvShape ch r h with
      | error e => rw [hds] at hok; cases hok
      | ok h1 =>
          rw [hds] at hok
          dsimp only at hok
          cases hgo : dstackGo useAttn n (level + 1) rest
              (dstackBlocks ch (useAttn && level == n - 1) level (List.range nb) h1).1 with
          | error e => rw [hgo] at hok; cases hok
          | ok res3 =>
              obtain ⟨h3, sk2, tr2⟩ := res3
              rw [hgo] at hok
              injection hok with hok2
              injection hok2 with ha hb
              injection hb with hc hd
              subst hc
              have hlen2 := ih (level + 1) _ _ _ _ hgo
              simp [dstackBlocks_count, hlen2]

theorem dstackShape_skips_len (useAttn : Bool) (levels : List (Nat × Nat × Nat))
    (x hf : Shp) (sk : List Shp) (tr : List (Nat × Nat))
    (hok : dstackShape useAttn levels x = Except.ok (hf, sk, tr)) :
    sk.length = 1 + (levels.map (fun t => t.2.1)).sum := by
  simp only [dstackShape] at hok
  cases hgo : dstackGo useAttn levels.length 0 levels (convShape 128 x) with
  | error e => rw [hgo] at hok; cases hok
  | ok res =>
      obtain ⟨hf2, sk2, tr2⟩ := res
      rw [hgo] at hok
      injection hok with hok2
      injection hok2 with ha hb
      injection hb with hc hd
      subst hc
      have := dstackGo_skips_len useAttn levels.length levels 0 _ _ _ _ hgo
      simp [this]
      omega

theorem popLast_len (l : List Shp) (s : Shp) (l2 : List Shp)
    (h : popLast l = Except.ok (s, l2)) : l.length = l2.length + 1 := by
  simp only [popLast] at h
  cases hl : l.getLast? with
  | none => rw [hl] at h; cases h
  | some s2 =>
      rw [hl] at h
      injection h with h2
      injection h2 with ha hb
      subst hb
      have hne : l ≠ [] := by
        intro he
        subst he
        simp at hl
      rw [List.length_dropLast]
      have : 0 < l.length := List.length_pos.mpr hne
      omega

theorem ustackBlocks_len (ch : Nat) (attn : Bool) (level : Nat) (ids : List Nat) :
    ∀ h skips h3 skips3 tr,
      ustackBlocks ch attn level ids h skips = Except.ok (h3, skips3, tr) →
      skips.length = skips3.length + ids.length := by
  induction ids with
  | nil =>
      intro h skips h3 skips3 tr hok
      simp only [ustackBlocks] at hok
      injection hok with h2
      injection h2 with ha hb
      injection hb with hc hd
      simp [← hc]
  | cons bid rest ih =>
      intro h skips h3 skips3 tr hok
      simp only [ustackBlocks] at hok
      cases hp : popLast skips with
      | error e => rw [hp] at hok; cases hok
      | ok p =>
          obtain ⟨s, skips2⟩ := p
          rw [hp] at hok
          dsimp only at hok
          cases hc : combineShape h s with
          | error e => rw [hc] at hok; cases hok
          | ok h1 =>
              rw [hc] at hok
              dsimp only at hok
              cases hr : ustackBlocks ch attn level rest (convBlockShape ch h1) skips2 with
              | error e => rw [hr] at hok; cases hok
              | ok res =>
                  obtain ⟨h4, skips4, tr2⟩ := res
                  rw [hr] at hok
                  injection hok with h2
                  injection h2 with ha hb
                  injection hb with hcc hd
                  subst hcc
                  have := ih _ _ _ _ _ hr
                  have := popLast_len skips s skips2 hp
                  simp only [List.length_cons]
                  omega

theorem ustackGo_len (useAttn : Bool) (kd : Nat) (levels : List (Nat × Nat × Nat)) :
    ∀ level h skips h4 skips4 tr,
      ustackGo useAttn kd level levels h skips = Except.ok (h4, skips4, tr) →
      skips.length = skips4.length + (levels.map (fun t => t.2.1)).sum := by
  induction levels with
  | nil =>
      intro level h skips h4 skips4 tr hok
      simp only [ustackGo] at hok
      injection hok with h2
      injection h2 with ha hb
      injection hb with hc hd
      simp [← hc]
  | cons trip rest ih =>
      obtain ⟨ch, nb, r⟩ := trip
      intro level h skips h4 skips4 tr hok
      simp only [ustackGo] at hok
      cases hb : ustackBlocks ch (useAttn && level == 0) level (List.range nb) h skips with
      | error e => rw [hb] at hok; cases hok
      | ok res1 =>
          obtain ⟨h1, skips1, tr1⟩ := res1
          rw [hb] at hok
          dsimp only at hok
          cases hcs : channelToSpaceShape r kd (convShape (r ^ kd * ch) h1) with
          | error e => rw [hcs] at hok; cases hok
          | ok h3 =>
              rw [hcs] at hok
              dsimp only at hok
              cases hgo : ustackGo useAttn kd (level + 1) rest h3 skips1 with
              | error e => rw [hgo] at hok; cases hok
              | ok res2 =>
                  obtain ⟨h5, skips5, tr2⟩ := res2
                  rw [hgo] at hok
                  injection hok with h2
                  injection h2 with ha hb2
                  injection hb2 with hc hd
                  subst hc
                  have hl1 := ustackBlocks_len ch (useAttn && level == 0) level
                    (List.range nb) h skips _ _ _ hb
                  have hl2 := ih (level + 1) _ _ _ _ _ hgo
                  simp only [List.map_cons, List.sum_cons, List.length_range] at hl1 ⊢
                  omega

theorem ustackShape_consumes (useAttn : Bool) (levels : List (Nat × Nat × Nat))
    (x h : Shp) (skips sk2 : List Shp) (tr : List (Nat × Nat))
    (hok : ustackShape useAttn levels x skips = Except.ok (h, sk2, tr)) :
    skips.length = sk2.length + (levels.map (fun t => t.2.1)).sum + 1 := by
  simp only [ustackShape] at hok
  cases hgo : ustackGo useAttn (x.length - 2) 0 levels x skips with
  | error e => rw [hgo] at hok; cases hok
  | ok res =>
      obtain ⟨h1, sk1, tr1⟩ := res
      rw [hgo] at hok
      dsimp only at hok
      cases hp : popLast sk1 with
      | error e => rw [hp] at hok; cases hok
      | ok p =>
          obtain ⟨s, sk3⟩ := p
          rw [hp] at hok
          dsimp only at hok
          cases hc : combineShape h1 s with
          | error e => rw [hc] at hok; cases hok
          | ok h2 =>
              rw [hc] at hok
              injection hok with hok2
              injection hok2 with ha hb
              injection hb with hcc hd
              subst hcc
              have hl1 := ustackGo_len useAttn (x.length - 2) levels 0 _ _ _ _ _ hgo
              have hl2 := popLast_len sk1 s sk3 hp
              omega

/-- C3: `DStack.__call__` returns a list of exactly `1 + sum(num_res_blocks)`
feature arrays (one appended after the initial convolution and one after
each residual block), and `UStack.__call__`, given that list together with
num_res_blocks of equal total, pops every element in last-in-first-out order
(`sum(num_res_blocks)` pops inside its level loops plus one final pop),
leaving the skip list empty. -/
theorem skip_bookkeeping (useAttn uA2 : Bool)
    (levels levels2 : List (Nat × Nat × Nat)) :
    (∀ x hf sk tr, dstackShape useAttn levels x = Except.ok (hf, sk, tr) →
      sk.length = 1 + (levels.map (fun t => t.2.1)).sum) ∧
    (∀ xl skips h sk2 tr,
      (levels2.map (fun t => t.2.1)).sum = (levels.map (fun t => t.2.1)).sum →
      skips.length = 1 + (levels.map (fun t => t.2.1)).sum →
      ustackShape uA2 levels2 xl skips = Except.ok (h, sk2, tr) →
      sk2 = []) := by
  constructor
  · intro x hf sk tr hok
    exact dstackShape_skips_len useAttn levels x hf sk tr hok
  · intro xl skips h sk2 tr hsum hlen hok
    have := ustackShape_consumes uA2 levels2 xl h skips sk2 tr hok
    have hz : sk2.length = 0 := by omega
    exact List.length_eq_zero.mp hz

/- ### Attention-trace lemmas (C4) -/

/-- `num_res_blocks` of the last (coarsest) DStack level, 0 when empty. -/
def lastBlocks (levels : List (Nat × Nat × Nat)) : Nat :=
  ((levels.getLast?).map (fun t => t.2.1)).getD 0

/-- `num_res_blocks` of the first (coarsest) UStack level, 0 when empty. -/
def headBlocks (levels : List (Nat × Nat × Nat)) : Nat :=
  ((levels.head?).map (fun t => t.2.1)).getD 0

theorem dstackBlocks_trace (ch : Nat) (attn : Bool) (level : Nat) (ids : List Nat) :
    ∀ h, (dstackBlocks ch attn level ids h).2.2 =
      if attn = true then ids.map (fun bid => (level, bid)) else [] := by
  induction ids with
  | nil => intro h; cases attn <;> rfl
  | cons bid rest ih =>
      intro h
      cases attn with
      | true => simp [dstackBlocks, ih]
      | false => simp [dstackBlocks, ih]

theorem dstackGo_trace (useAttn : Bool) (n : Nat) (levels : List (Nat × Nat × Nat)) :
    ∀ level h hf sk tr, level + levels.length = n →
      dstackGo useAttn n level levels h = Except.ok (hf, sk, tr) →
      ∀ l bk, ((l, bk) ∈ tr ↔
        (useAttn = true ∧ l = n - 1 ∧ bk < lastBlocks levels)) := by
  induction levels with
  | nil =>
      intro level h hf sk tr hn hok l bk
      simp only [dstackGo] at hok
      injection hok with hok2
      injection hok2 with h1 h2
      injection h2 with h3 h4
      simp [← h4, lastBlocks]
  | cons trip rest ih =>
      obtain ⟨ch, nb, r⟩ := trip
      intro level h hf sk tr hn hok l bk
      simp only [dstackGo] at hok
      cases hds : downsampleConvShape ch r h with
      | error e => rw [hds] at hok; cases hok
      | ok h1 =>
          rw [hds] at hok
          dsimp only at hok
          cases hgo : dstackGo useAttn n (level + 1) rest
              (dstackBlocks ch (useAttn && level == n - 1) level (List.range nb) h1).1 with
          | error e => rw [hgo] at hok; cases hok
          | ok res3 =>
              obtain ⟨h3, sk2, tr2⟩ := res3
              rw [hgo] at hok
              injection hok with hok2
              injection hok2 with ha hb
              injection hb with hc hd
              subst hd
              rw [List.mem_append, dstackBlocks_trace]
              cases rest with
              | nil =>
                  have hlev : level = n - 1 := by
                    simp only [List.length_cons, List.length_nil] at hn
                    omega
                  have htr2 : tr2 = [] := by
                    simp only [dstackGo] at hgo
                    injection hgo with hgo2
                    injection hgo2 with g1 g2
                    injection g2 with g3 g4
                    exact g4.symm
                  subst htr2
                  subst hlev
                  have hlb : lastBlocks [(ch, nb, r)] = nb := rfl
                  rw [hlb]
                  rw [show ((n - 1 == n - 1) : Bool) = true from beq_self_eq_true (n - 1)]
                  rw [Bool.and_true]
                  cases useAttn with
                  | false =>
                      simp
                  | true =>
                      rw [if_pos rfl]
                      simp only [List.mem_map, List.mem_range, Prod.mk.injEq,
                        List.not_mem_nil, or_false, true_and]
                      constructor
                      · rintro ⟨a, ha2, he1, he2⟩
                        exact ⟨he1.symm, by omega⟩
                      · rintro ⟨he1, hbk⟩
                        exact ⟨bk, hbk, he1.symm, rfl⟩
              | cons trip2 rest2 =>
                  have hlev : ((level == n - 1) : Bool) = false := by
                    simp only [List.length_cons] at hn
                    simp only [beq_eq_false_iff_ne, ne_eq]
                    omega
                  rw [hlev, Bool.and_false]
                  rw [if_neg (by simp)]
                  have hih := ih (level + 1) _ _ _ _
                    (by simp only [List.length_cons] at hn ⊢; omega) hgo l bk
                  rw [show lastBlocks ((ch, nb, r) :: trip2 :: rest2)
                      = lastBlocks (trip2 :: rest2) from by
                    simp [lastBlocks, List.getLast?_cons_cons]]
                  simp only [List.not_mem_nil, false_or]
                  exact hih

theorem dstackShape_trace (useAttn : Bool) (levels : List (Nat × Nat × Nat))
    (x hf : Shp) (sk : List Shp) (tr : List (Nat × Nat))
    (hok : dstackShape useAttn levels x = Except.ok (hf, sk, tr)) :
    ∀ l bk, ((l, bk) ∈ tr ↔
      (useAttn = true ∧ l = levels.length - 1 ∧ bk < lastBlocks levels)) := by
  simp only [dstackShape] at hok
  cases hgo : dstackGo useAttn levels.length 0 levels (convShape 128 x) with
  | error e => rw [hgo] at hok; cases hok
  | ok res =>
      obtain ⟨hf2, sk2, tr2⟩ := res
      rw [hgo] at hok
      injection hok with hok2
      injection hok2 with ha hb
      injection hb with hc hd
      subst hd
      exact dstackGo_trace useAttn levels.length levels 0 _ _ _ _ (by omega) hgo

theorem ustackBlocks_trace (ch : Nat) (attn : Bool) (level : Nat) (ids : List Nat) :
    ∀ h skips h3 sk3 tr,
      ustackBlocks ch attn level ids h skips = Except.ok (h3, sk3, tr) →
      ∀ l bk, ((l, bk) ∈ tr ↔ (attn = true ∧ l = level ∧ bk ∈ ids)) := by
  induction ids with
  | nil =>
      intro h skips h3 sk3 tr hok l bk
      simp only [ustackBlocks] at hok
      injection hok with h2
      injection h2 with ha hb
      injection hb with hc hd
      simp [← hd]
  | cons bid rest ih =>
      intro h skips h3 sk3 tr hok l bk
      simp only [ustackBlocks] at hok
      cases hp : popLast skips with
      | error e => rw [hp] at hok; cases hok
      | ok p =>
          obtain ⟨s, skips2⟩ := p
          rw [hp] at hok
          dsimp only at hok
          cases hc : combineShape h s with
          | error e => rw [hc] at hok; cases hok
          | ok h1 =>
              rw [hc] at hok
              dsimp only at hok
              cases hr : ustackBlocks ch attn level rest (convBlockShape ch h1) skips2 with
              | error e => rw [hr] at hok; cases hok
              | ok res =>
                  obtain ⟨h4, skips4, tr2⟩ := res
                  rw [hr] at hok
                  injection hok with h2
                  injection h2 with ha hb
                  injection hb with hcc hd
                  subst hd
                  have hih := ih _ _ _ _ _ hr l bk
                  have hmem1 : (l, bk) ∈ (if attn = true then [(level, bid)] else []) ↔
                      (attn = true ∧ l = level ∧ bk = bid) := by
                    by_cases hat : attn = true
                    · simp [hat, Prod.ext_iff]
                    · simp [hat]
                  rw [List.mem_append, hmem1, hih]
                  constructor
                  · rintro (⟨hq1, hq2, hq3⟩ | ⟨hq1, hq2, hq3⟩)
                    · exact ⟨hq1, hq2, by rw [hq3]; exact List.mem_cons_self bid rest⟩
                    · exact ⟨hq1, hq2, List.mem_cons_of_mem bid hq3⟩
                  · rintro ⟨hq1, hq2, hq3⟩
                    rcases List.mem_cons.mp hq3 with hq4 | hq4
                    · exact Or.inl ⟨hq1, hq2, hq4⟩
                    · exact Or.inr ⟨hq1, hq2, hq4⟩

theorem ustackGo_trace (useAttn : Bool) (kd : Nat) (levels : List (Nat × Nat × Nat)) :
    ∀ level h skips h4 sk4 tr,
      ustackGo useAttn kd level levels h skips = Except.ok (h4, sk4, tr) →
      ∀ l bk, ((l, bk) ∈ tr ↔
        (useAttn = true ∧ l = 0 ∧ level = 0 ∧ bk < headBlocks levels)) := by
  induction levels with
  | nil =>
      intro level h skips h4 sk4 tr hok l bk
      simp only [ustackGo] at hok
      injection hok with h2
      injection h2 with ha hb
      injection hb with hc hd
      simp [← hd, headBlocks]
  | cons trip rest ih =>
      obtain ⟨ch, nb, r⟩ := trip
      intro level h skips h4 sk4 tr hok l bk
      simp only [ustackGo] at hok
      cases hb : ustackBlocks ch (useAttn && level == 0) level (List.range nb) h skips with
      | error e => rw [hb] at hok; cases hok
      | ok res1 =>
          obtain ⟨h1, skips1, tr1⟩ := res1
          rw [hb] at hok
          dsimp only at hok
          cases hcs : channelToSpaceShape r kd (convShape (r ^ kd * ch) h1) with
          | error e => rw [hcs] at hok; cases hok
          | ok h3 =>
              rw [hcs] at hok
              dsimp only at hok
              cases hgo : ustackGo useAttn kd (level + 1) rest h3 skips1 with
              | error e => rw [hgo] at hok; cases hok
              | ok res2 =>
                  obtain ⟨h5, skips5, tr2⟩ := res2
                  rw [hgo] at hok
                  injection hok with h2
                  injection h2 with ha hb2
                  injection hb2 with hc hd
                  subst hd
                  have h1m := ustackBlocks_trace ch (useAttn && level == 0) level
                    (List.range nb) _ _ _ _ _ hb l bk
                  have h2m := ih (level + 1) _ _ _ _ _ hgo l bk
                  rw [List.mem_append, h1m, h2m]
                  have hhb : headBlocks ((ch, nb, r) :: rest) = nb := rfl
                  rw [hhb]
                  simp only [List.mem_range, Bool.and_eq_true, beq_iff_eq]
                  constructor
                  · rintro (⟨⟨hu, hl0⟩, hle, hbk⟩ | ⟨hu, hl0, hlev, hbk⟩)
                    · exact ⟨hu, by omega, hl0, hbk⟩
                    · omega
                  · rintro ⟨hu, hl0, hlev, hbk⟩
                    exact Or.inl ⟨⟨hu, hlev⟩, by omega, hbk⟩

theorem ustackShape_trace (useAttn : Bool) (levels : List (Nat × Nat × Nat))
    (x h : Shp) (skips sk2 : List Shp) (tr : List (Nat × Nat))
    (hok : ustackShape useAttn levels x skips = Except.ok (h, sk2, tr)) :
    ∀ l bk, ((l, bk) ∈ tr ↔
      (useAttn = true ∧ l = 0 ∧ bk < headBlocks levels)) := by
  simp only [ustackShape] at hok
  cases hgo : ustackGo useAttn (x.length - 2) 0 levels x skips with
  | error e => rw [hgo] at hok; cases hok
  | ok res =>
      obtain ⟨h1, sk1, tr1⟩ := res
      rw [hgo] at hok
      dsimp only at hok
      cases hp : popLast sk1 with
      | error e => rw [hp] at hok; cases hok
      | ok p =>
          obtain ⟨s, sk3⟩ := p
          rw [hp] at hok
          dsimp only at hok
          cases hc : combineShape h1 s with
          | error e => rw [hc] at hok; cases hok
          | ok h2 =>
              rw [hc] at hok
              injection hok with hok2
              injection hok2 with ha hb
              injection hb with hcc hd
              subst hd
              intro l bk
              have := ustackGo_trace useAttn (x.length - 2) levels 0 _ _ _ _ _ hgo l bk
              rw [this]
              constructor
              · rintro ⟨hu, hl0, _, hbk⟩
                exact ⟨hu, hl0, hbk⟩
              · rintro ⟨hu, hl0, hbk⟩
                exact ⟨hu, hl0, rfl, hbk⟩

/-- C4: attention is injected only at the coarsest resolution.  When
`use_attention` is true, `DStack.__call__` applies its attention block (and
following `ResConv1x`) exactly at the last level (`level ==
len(num_channels) - 1`, after all downsampling) and `UStack.__call__`
exactly at level 0 (before any upsampling); at every other level no
attention block is applied. -/
theorem attention_at_coarsest (useAttn : Bool)
    (levels levels2 : List (Nat × Nat × Nat)) :
    (∀ x hf sk tr, dstackShape useAttn levels x = Except.ok (hf, sk, tr) →
      ∀ l bk, ((l, bk) ∈ tr ↔
        (useAttn = true ∧ l = levels.length - 1 ∧ bk < lastBlocks levels))) ∧
    (∀ xl skips h sk2 tr,
      ustackShape useAttn levels2 xl skips = Except.ok (h, sk2, tr) →
      ∀ l bk, ((l, bk) ∈ tr ↔
        (useAttn = true ∧ l = 0 ∧ bk < headBlocks levels2))) := by
  constructor
  · intro x hf sk tr hok
    exact dstackShape_trace useAttn levels x hf sk tr hok
  · intro xl skips h sk2 tr hok
    exact ustackShape_trace useAttn levels2 xl h skips sk2 tr hok

theorem skip_bookkeeping_witness :
    (([[1, 2, 128], [1, 2, 4]] : List Shp).length =
      1 + (([(4, 1, 1)] : List (Nat × Nat × Nat)).map (fun t => t.2.1)).sum) ∧
    (([] : List Shp) = []) :=
  ⟨(skip_bookkeeping false false [(4, 1, 1)] [(4, 1, 1)]).1 [1, 2, 3] [1, 2, 4]
      [[1, 2, 128], [1, 2, 4]] [] rfl,
   (skip_bookkeeping false false [(4, 1, 1)] [(4, 1, 1)]).2 [1, 2, 4]
      [[1, 2, 128], [1, 2, 4]] [1, 2, 128] [] [] (by decide) (by decide) rfl⟩

theorem attention_at_coarsest_witness :
    (∀ l bk, ((l, bk) ∈ ([(0, 0)] : List (Nat × Nat)) ↔
      (true = true ∧ l = ([(4, 1, 1)] : List (Nat × Nat × Nat)).length - 1 ∧
        bk < lastBlocks [(4, 1, 1)]))) ∧
    (∀ l bk, ((l, bk) ∈ ([(0, 0)] : List (Nat × Nat)) ↔
      (true = true ∧ l = 0 ∧ bk < headBlocks [(4, 1, 1)]))) :=
  ⟨(attention_at_coarsest true [(4, 1, 1)] [(4, 1, 1)]).1 [1, 2, 3] [1, 2, 4]
      [[1, 2, 128], [1, 2, 4]] [(0, 0)] rfl,
   (attention_at_coarsest true [(4, 1, 1)] [(4, 1, 1)]).2 [1, 2, 4]
      [[1, 2, 128], [1, 2, 4]] [1, 2, 128] [] [(0, 0)] rfl⟩

/- ### MergeChannelCond (C8) -/

theorem merge_cond_step (embed : Nat) (p : List Nat) (c : Nat) (k : String)
    (v : Shp) (rest : List (String × Shp)) (hv : v.length = (p ++ [c]).length) :
    mergeChannelCondShape embed (p ++ [c]) ((k, v) :: rest) =
      mergeChannelCondShape embed (p ++ [c + embed]) rest := by
  have hbne : (v.length != (p ++ [c]).length) = false := by
    simp [hv]
  have hc2 : (k.startsWith "channel:" && (v.length != (p ++ [c]).length)) = false := by
    rw [hbne, Bool.and_false]
  simp only [mergeChannelCondShape, hc2]
  rw [if_neg (by simp)]
  have hdrop : (p ++ [c]).dropLast = p := List.dropLast_concat
  have hlast : (p ++ [c]).getLastD 0 = c := List.getLastD_concat _ _ _
  have hres : resizeShape ((p ++ [c]).dropLast) v = p ++ [v.getLastD 0] := by
    rw [hdrop]
    simp only [resizeShape]
    have hlen : v.length - p.length - 1 = 0 := by
      simp only [List.length_append, List.length_cons, List.length_nil] at hv
      omega
    rw [hlen]
    simp
  have hv2 : convShape embed (resizeShape ((p ++ [c]).dropLast) v) = p ++ [embed] := by
    rw [hres, convShape, List.dropLast_concat]
  rw [hv2]
  rw [if_pos (by rw [List.dropLast_concat, hdrop])]
  rw [hdrop, hlast, List.getLastD_concat]

/-- C8: `MergeChannelCond.__call__` resizes, layer-normalises,
swish-activates, convolves and concatenates every entry of `cond` onto `x`
along the channel axis, regardless of whether its key starts with
`"channel:"`; the prefix controls only the ndim-mismatch `ValueError`
check, so entries without the prefix are merged rather than omitted, and the
output channel count is `x`'s channels plus `embed_dim` times the number of
entries in `cond`. -/
theorem merge_channel_cond_spec (embed : Nat) (p : List Nat) (c : Nat)
    (cond : List (String × Shp))
    (hall : ∀ kv ∈ cond, (kv.2 : Shp).length = (p ++ [c]).length) :
    (mergeChannelCondShape embed (p ++ [c]) cond =
      Except.ok (p ++ [c + embed * cond.length])) ∧
    (∀ k v rest2, k.startsWith "channel:" = true →
      (v : Shp).length ≠ (p ++ [c]).length →
      mergeChannelCondShape embed (p ++ [c]) ((k, v) :: rest2) =
        Except.error ("Channel condition `" ++ k ++
          "` does not have the same ndim as x!")) := by
  constructor
  · induction cond generalizing c with
    | nil => simp [mergeChannelCondShape]
    | cons kv rest ih =>
        obtain ⟨k, v⟩ := kv
        have hv : v.length = (p ++ [c]).length := hall (k, v) (List.mem_cons_self _ _)
        rw [merge_cond_step embed p c k v rest hv]
        have hall2 : ∀ kv ∈ rest, (kv.2 : Shp).length = (p ++ [c + embed]).length := by
          intro kv2 hkv2
          have := hall kv2 (List.mem_cons_of_mem _ hkv2)
          simpa using this
        rw [ih (c + embed) hall2]
        have harith : c + embed + embed * rest.length = c + embed * (rest.length + 1) := by
          ring
        rw [harith]
        rfl
  · intro k v rest2 hpre hne
    have hbne : (v.length != (p ++ [c]).length) = true := bne_iff_ne.mpr hne
    have hc2 : (k.startsWith "channel:" && (v.length != (p ++ [c]).length)) = true := by
      rw [hbne, hpre, Bool.and_self]
    simp only [mergeChannelCondShape, hc2]
    simp

theorem merge_channel_cond_spec_witness :
    (mergeChannelCondShape 2 ([1, 4] ++ [3])
        [("channel:a", [1, 4, 5]), ("b", [1, 4, 7])] =
      Except.ok ([1, 4] ++
        [3 + 2 * ([("channel:a", ([1, 4, 5] : Shp)), ("b", [1, 4, 7])]).length])) ∧
    (∀ k v rest2, k.startsWith "channel:" = true →
      (v : Shp).length ≠ (([1, 4] : List Nat) ++ [3]).length →
      mergeChannelCondShape 2 ([1, 4] ++ [3]) ((k, v) :: rest2) =
        Except.error ("Channel condition `" ++ k ++
          "` does not have the same ndim as x!")) :=
  merge_channel_cond_spec 2 [1, 4] 3 [("channel:a", [1, 4, 5]), ("b", [1, 4, 7])]
    (by decide)

/- ### Full shape propagation (C2) -/

theorem convShape_concat (f : Nat) (p : List Nat) (c : Nat) :
    convShape f (p ++ [c]) = p ++ [f] := by
  simp only [convShape, List.dropLast_concat]

theorem downsampleConvShape_ok (f r b : Nat) (t : List Nat) (c : Nat)
    (hdvd : ∀ d ∈ t, d % r = 0) :
    downsampleConvShape f r (b :: (t ++ [c])) =
      Except.ok (b :: (t.map (fun d => d / r) ++ [f])) := by
  simp only [downsampleConvShape]
  have h1 : ((b :: (t ++ [c])).drop 1).dropLast = t := by
    simp [List.dropLast_concat]
  rw [h1]
  rw [if_pos (by rw [List.all_eq_true]; intro d hd; simpa using hdvd d hd)]
  rfl

theorem channelToSpaceShape_ok (r kd b ch : Nat) (t : List Nat)
    (hr : 0 < r ^ kd) :
    channelToSpaceShape r kd (b :: (t ++ [r ^ kd * ch])) =
      Except.ok (b :: (t.map (fun d => d * r) ++ [ch])) := by
  simp only [channelToSpaceShape]
  have h1 : ((b :: (t ++ [r ^ kd * ch])).drop 1).dropLast = t := by
    simp [List.dropLast_concat]
  have h2 : (b :: (t ++ [r ^ kd * ch])).getLastD 0 = r ^ kd * ch := by
    rw [show b :: (t ++ [r ^ kd * ch]) = (b :: t) ++ [r ^ kd * ch] from rfl]
    exact List.getLastD_concat _ _ _
  rw [h1, h2]
  rw [if_pos (Nat.mul_mod_right _ _)]
  rw [Nat.mul_div_cancel_left ch hr]
  rfl

/-- The channel count of the feature map leaving a stack of levels: the last
level channel, or the incoming `c` when there are no levels. -/
def lastChannelOf (levels : List (Nat × Nat × Nat)) (c : Nat) : Nat :=
  ((levels.getLast?).map (fun trip => trip.1)).getD c

theorem lastChannelOf_cons (trip : Nat × Nat × Nat) (rest : List (Nat × Nat × Nat))
    (c : Nat) : lastChannelOf (trip :: rest) c = lastChannelOf rest trip.1 := by
  cases rest with
  | nil => rfl
  | cons t2 r2 =>
      cases hq : (t2 :: r2).getLast? with
      | none => simp [List.getLast?_eq_none_iff] at hq
      | some v => simp [lastChannelOf, List.getLast?_cons_cons, hq]

/-- The skip shapes produced by the DStack level loop on spatial size `t`. -/
def dstackSkipsSpec (b : Nat) : List (Nat × Nat × Nat) → List Nat → List Shp
  | [], _ => []
  | (ch, nb, r) :: rest, t =>
      List.replicate nb (b :: (t.map (fun d => d / r) ++ [ch])) ++
        dstackSkipsSpec b rest (t.map (fun d => d / r))

theorem dstackBlocks_fix (ch : Nat) (attn : Bool) (level : Nat) (ids : List Nat) :
    ∀ h, convBlockShape ch h = h →
      dstackBlocks ch attn level ids h =
        (h, List.replicate ids.length h,
         (dstackBlocks ch attn level ids h).2.2) := by
  induction ids with
  | nil => intro h hfix; rfl
  | cons bid rest ih =>
      intro h hfix
      simp only [dstackBlocks, hfix]
      rw [ih h hfix]
      simp [List.replicate_succ]

theorem dstackGo_spec (useAttn : Bool) (n : Nat) (levels : List (Nat × Nat × Nat)) :
    ∀ level b c t, (∀ d ∈ t, (levels.map (fun trip => trip.2.2)).prod ∣ d) →
      ∃ tr, dstackGo useAttn n level levels (b :: (t ++ [c])) =
        Except.ok
          (b :: (t.map (fun d => d / (levels.map (fun trip => trip.2.2)).prod) ++
            [lastChannelOf levels c]),
           dstackSkipsSpec b levels t, tr) := by
  induction levels with
  | nil =>
      intro level b c t _hdvd
      refine ⟨[], ?_⟩
      simp only [dstackGo, List.map_nil, List.prod_nil, lastChannelOf,
        List.getLast?_nil, Option.map_none, Option.getD_none, dstackSkipsSpec]
      have ht : t.map (fun d => d / 1) = t := by
        rw [List.map_congr_left (fun d _hd => Nat.div_one d)]
        exact List.map_id t
      rw [ht]
      rfl
  | cons trip rest ih =>
      obtain ⟨ch, nb, r⟩ := trip
      intro level b c t hdvd
      have hdvd1 : ∀ d ∈ t, d % r = 0 := by
        intro d hd
        have h2 := hdvd d hd
        simp only [List.map_cons, List.prod_cons] at h2
        obtain ⟨q, hq⟩ := dvd_trans (dvd_mul_right r _) h2
        rw [hq]
        exact Nat.mul_mod_right r q
      have hstep := downsampleConvShape_ok ch r b t c hdvd1
      have hfix : convBlockShape ch (b :: (t.map (fun d => d / r) ++ [ch]))
          = b :: (t.map (fun d => d / r) ++ [ch]) :=
        convShape_concat ch (b :: t.map (fun d => d / r)) ch
      have hdvd2 : ∀ d2 ∈ t.map (fun d => d / r),
          (rest.map (fun trip => trip.2.2)).prod ∣ d2 := by
        intro d2 hd2
        rw [List.mem_map] at hd2
        obtain ⟨d, hd, rfl⟩ := hd2
        have h2 := hdvd d hd
        simp only [List.map_cons, List.prod_cons] at h2
        exact Nat.dvd_div_of_mul_dvd h2
      obtain ⟨tr2, hrec⟩ := ih (level + 1) b ch (t.map (fun d => d / r)) hdvd2
      refine ⟨(dstackBlocks ch (useAttn && level == n - 1) level (List.range nb)
        (b :: (t.map (fun d => d / r) ++ [ch]))).2.2 ++ tr2, ?_⟩
      simp only [dstackGo]
      rw [hstep]
      dsimp only
      rw [dstackBlocks_fix _ _ _ _ _ hfix]
      dsimp only
      rw [hrec]
      have hmm : (t.map (fun d => d / r)).map
            (fun d => d / (rest.map (fun trip => trip.2.2)).prod)
          = t.map (fun d =>
              d / (((ch, nb, r) :: rest).map (fun trip => trip.2.2)).prod) := by
        rw [List.map_map]
        refine List.map_congr_left (fun d _hd => ?_)
        simp only [Function.comp, List.map_cons, List.prod_cons]
        exact Nat.div_div_eq_div_mul d r _
      rw [hmm]
      rw [show lastChannelOf rest ch = lastChannelOf ((ch, nb, r) :: rest) c from
        (lastChannelOf_cons (ch, nb, r) rest c).symm]
      rw [show dstackSkipsSpec b ((ch, nb, r) :: rest) t
          = List.replicate nb (b :: (t.map (fun d => d / r) ++ [ch])) ++
            dstackSkipsSpec b rest (t.map (fun d => d / r)) from rfl]
      rw [List.length_range]

theorem dstackShape_spec (useAttn : Bool) (levels : List (Nat × Nat × Nat))
    (b c : Nat) (t : List Nat)
    (hdvd : ∀ d ∈ t, (levels.map (fun trip => trip.2.2)).prod ∣ d) :
    ∃ tr, dstackShape useAttn levels (b :: (t ++ [c])) =
      Except.ok
        (b :: (t.map (fun d => d / (levels.map (fun trip => trip.2.2)).prod) ++
          [lastChannelOf levels 128]),
         (b :: (t ++ [128])) :: dstackSkipsSpec b levels t, tr) := by
  have hconv : convShape 128 (b :: (t ++ [c])) = b :: (t ++ [128]) :=
    convShape_concat 128 (b :: t) c
  obtain ⟨tr, hgo⟩ := dstackGo_spec useAttn levels.length levels 0 b 128 t hdvd
  refine ⟨tr, ?_⟩
  simp only [dstackShape, hconv, hgo]

theorem popLast_concat (l : List Shp) (a : Shp) :
    popLast (l ++ [a]) = Except.ok (a, l) := by
  simp only [popLast, List.getLast?_concat, List.dropLast_concat]

/-- The skip shapes consumed by the UStack level loop, listed in the order
they sit in the skip list (the last group is consumed first). -/
def ustackConsumes (b : Nat) : List (Nat × Nat × Nat) → List Nat → List Shp
  | [], _ => []
  | (ch, nb, r) :: rest, t =>
      ustackConsumes b rest (t.map (fun d => d * r)) ++
        List.replicate nb (b :: (t ++ [ch]))

theorem ustackBlocks_spec (ch : Nat) (attn : Bool) (level : Nat) (ids : List Nat) :
    ∀ b t c cskip (pre : List Shp),
      ∃ c2 tr, ustackBlocks ch attn level ids (b :: (t ++ [c]))
          (pre ++ List.replicate ids.length (b :: (t ++ [cskip]))) =
        Except.ok (b :: (t ++ [c2]), pre, tr) := by
  induction ids with
  | nil =>
      intro b t c cskip pre
      refine ⟨c, [], ?_⟩
      simp [ustackBlocks]
  | cons bid rest ih =>
      intro b t c cskip pre
      have hrep : pre ++ List.replicate (bid :: rest).length (b :: (t ++ [cskip]))
          = (pre ++ List.replicate rest.length (b :: (t ++ [cskip]))) ++
            [b :: (t ++ [cskip])] := by
        rw [List.length_cons, List.replicate_succ']
        simp [List.append_assoc]
      have hcomb : combineShape (b :: (t ++ [c])) (b :: (t ++ [cskip]))
          = Except.ok (b :: (t ++ [c])) := by
        simp only [combineShape]
        rw [show (b :: (t ++ [c])).dropLast = b :: t from
            @List.dropLast_concat Nat (b :: t) c,
          show (b :: (t ++ [cskip])).dropLast = b :: t from
            @List.dropLast_concat Nat (b :: t) cskip]
        rw [if_pos rfl]
      have hconv : convBlockShape ch (b :: (t ++ [c])) = b :: (t ++ [ch]) :=
        convShape_concat ch (b :: t) c
      obtain ⟨c2, tr2, hrec⟩ := ih b t ch cskip pre
      refine ⟨c2, (if attn = true then [(level, bid)] else []) ++ tr2, ?_⟩
      simp only [ustackBlocks, hrep, popLast_concat]
      rw [hcomb]
      dsimp only
      rw [hconv, hrec]

theorem ustackGo_spec (useAttn : Bool) (kd : Nat) (levels : List (Nat × Nat × Nat)) :
    ∀ level b c t (pre : List Shp),
      (∀ trip ∈ levels, 0 < trip.2.2) →
      ∃ tr, ustackGo useAttn kd level levels (b :: (t ++ [c]))
          (pre ++ ustackConsumes b levels t) =
        Except.ok
          (b :: (t.map (fun d => d * (levels.map (fun trip => trip.2.2)).prod) ++
            [lastChannelOf levels c]),
           pre, tr) := by
  induction levels with
  | nil =>
      intro level b c t pre _hpos
      refine ⟨[], ?_⟩
      simp only [ustackGo, ustackConsumes, List.append_nil, List.map_nil,
        List.prod_nil]
      have ht : t.map (fun d => d * 1) = t := by
        rw [List.map_congr_left (fun d _hd => Nat.mul_one d)]
        exact List.map_id t
      rw [ht]
      rfl
  | cons trip rest ih =>
      obtain ⟨ch, nb, r⟩ := trip
      intro level b c t pre hpos
      have hrpos : 0 < r := hpos (ch, nb, r) (List.mem_cons_self _ _)
      have hrkd : 0 < r ^ kd := pow_pos hrpos kd
      have hassoc : pre ++ ustackConsumes b ((ch, nb, r) :: rest) t
          = (pre ++ ustackConsumes b rest (t.map (fun d => d * r))) ++
            List.replicate nb (b :: (t ++ [ch])) := by
        simp [ustackConsumes, List.append_assoc]
      obtain ⟨c2, tr1, hblocks⟩ := ustackBlocks_spec ch (useAttn && level == 0) level
        (List.range nb) b t c ch (pre ++ ustackConsumes b rest (t.map (fun d => d * r)))
      have hconv : convShape (r ^ kd * ch) (b :: (t ++ [c2]))
          = b :: (t ++ [r ^ kd * ch]) := convShape_concat _ (b :: t) c2
      have hc2s := channelToSpaceShape_ok r kd b ch t hrkd
      have hpos2 : ∀ trip2 ∈ rest, 0 < trip2.2.2 := fun trip2 h2 =>
        hpos trip2 (List.mem_cons_of_mem _ h2)
      obtain ⟨tr2, hrec⟩ := ih (level + 1) b ch (t.map (fun d => d * r)) pre hpos2
      refine ⟨tr1 ++ tr2, ?_⟩
      simp only [ustackGo]
      rw [hassoc]
      rw [show List.replicate nb (b :: (t ++ [ch]))
          = List.replicate (List.range nb).length (b :: (t ++ [ch])) from by
        rw [List.length_range]]
      rw [hblocks]
      dsimp only
      rw [hconv, hc2s]
      dsimp only
      rw [hrec]
      have hmm : (t.map (fun d => d * r)).map
            (fun d => d * (rest.map (fun trip => trip.2.2)).prod)
          = t.map (fun d =>
              d * (((ch, nb, r) :: rest).map (fun trip => trip.2.2)).prod) := by
        rw [List.map_map]
        refine List.map_congr_left (fun d _hd => ?_)
        simp only [Function.comp, List.map_cons, List.prod_cons]
        rw [Nat.mul_assoc]
      rw [hmm]
      rw [show lastChannelOf rest ch = lastChannelOf ((ch, nb, r) :: rest) c from
        (lastChannelOf_cons (ch, nb, r) rest c).symm]

theorem ustackConsumes_concat (b : Nat) (levels : List (Nat × Nat × Nat))
    (a : Nat × Nat × Nat) :
    ∀ t, ustackConsumes b (levels ++ [a]) t =
      List.replicate a.2.1
        (b :: (t.map (fun d => d * (levels.map (fun trip => trip.2.2)).prod) ++
          [a.1])) ++
        ustackConsumes b levels t := by
  induction levels with
  | nil =>
      intro t
      obtain ⟨ch, nb, r⟩ := a
      simp only [List.nil_append, ustackConsumes, List.map_nil, List.prod_nil,
        List.append_nil]
      have ht : t.map (fun d => d * 1) = t := by
        rw [List.map_congr_left (fun d _hd => Nat.mul_one d)]
        exact List.map_id t
      rw [ht]
  | cons x rest ih =>
      intro t
      obtain ⟨ch, nb, r⟩ := x
      simp only [List.cons_append, ustackConsumes]
      rw [show rest.append [a] = rest ++ [a] from rfl]
      rw [ih (t.map (fun d => d * r))]
      rw [List.append_assoc]
      have hmm : (t.map (fun d => d * r)).map
            (fun d => d * (rest.map (fun trip => trip.2.2)).prod)
          = t.map (fun d =>
              d * (((ch, nb, r) :: rest).map (fun trip => trip.2.2)).prod) := by
        rw [List.map_map]
        refine List.map_congr_left (fun d _hd => ?_)
        simp only [Function.comp, List.map_cons, List.prod_cons]
        rw [Nat.mul_assoc]
      rw [hmm]

theorem dstackSkipsSpec_eq (b : Nat) (levels : List (Nat × Nat × Nat)) :
    ∀ t, (∀ d ∈ t, (levels.map (fun trip => trip.2.2)).prod ∣ d) →
      dstackSkipsSpec b levels t =
        ustackConsumes b levels.reverse
          (t.map (fun d => d / (levels.map (fun trip => trip.2.2)).prod)) := by
  induction levels with
  | nil => intro t _; rfl
  | cons trip rest ih =>
      obtain ⟨ch, nb, r⟩ := trip
      intro t hdvd
      simp only [dstackSkipsSpec, List.reverse_cons]
      rw [ustackConsumes_concat]
      have hrats : (rest.reverse.map (fun trip => trip.2.2)).prod
          = (rest.map (fun trip => trip.2.2)).prod := by
        rw [List.map_reverse, List.prod_reverse]
      rw [hrats]
      have hdvd2 : ∀ d2 ∈ t.map (fun d => d / r),
          (rest.map (fun trip => trip.2.2)).prod ∣ d2 := by
        intro d2 hd2
        rw [List.mem_map] at hd2
        obtain ⟨d, hd, rfl⟩ := hd2
        have h2 := hdvd d hd
        simp only [List.map_cons, List.prod_cons] at h2
        exact Nat.dvd_div_of_mul_dvd h2
      have hih := ih (t.map (fun d => d / r)) hdvd2
      have htmin : (t.map (fun d => d / r)).map
            (fun d => d / (rest.map (fun trip => trip.2.2)).prod)
          = t.map (fun d =>
              d / (((ch, nb, r) :: rest).map (fun trip => trip.2.2)).prod) := by
        rw [List.map_map]
        refine List.map_congr_left (fun d _hd => ?_)
        simp only [Function.comp, List.map_cons, List.prod_cons]
        exact Nat.div_div_eq_div_mul d r _
      have hgrp : (t.map (fun d =>
            d / (((ch, nb, r) :: rest).map (fun trip => trip.2.2)).prod)).map
              (fun d => d * (rest.map (fun trip => trip.2.2)).prod)
          = t.map (fun d => d / r) := by
        rw [List.map_map]
        refine List.map_congr_left (fun d hd => ?_)
        simp only [Function.comp, List.map_cons, List.prod_cons]
        have h2 := hdvd d hd
        simp only [List.map_cons, List.prod_cons] at h2
        have hPd : (rest.map (fun trip => trip.2.2)).prod ∣ d / r :=
          Nat.dvd_div_of_mul_dvd h2
        rw [← Nat.div_div_eq_div_mul]
        exact Nat.div_mul_cancel hPd
      rw [hgrp, hih, htmin]

theorem ustackShape_spec (useAttn : Bool) (levels : List (Nat × Nat × Nat))
    (b c c0 : Nat) (tmin : List Nat)
    (hpos : ∀ trip ∈ levels, 0 < trip.2.2) :
    ∃ tr, ustackShape useAttn levels (b :: (tmin ++ [c]))
        ((b :: (tmin.map (fun d => d * (levels.map (fun trip => trip.2.2)).prod) ++
          [c0])) :: ustackConsumes b levels tmin) =
      Except.ok
        (b :: (tmin.map (fun d =>
            d * (levels.map (fun trip => trip.2.2)).prod) ++ [128]),
         [], tr) := by
  obtain ⟨tr, hgo⟩ := ustackGo_spec useAttn ((b :: (tmin ++ [c])).length - 2) levels
    0 b c tmin
    [b :: (tmin.map (fun d => d * (levels.map (fun trip => trip.2.2)).prod) ++ [c0])]
    hpos
  refine ⟨tr, ?_⟩
  simp only [ustackShape]
  rw [show (b :: (tmin.map (fun d =>
        d * (levels.map (fun trip => trip.2.2)).prod) ++ [c0])) ::
        ustackConsumes b levels tmin
      = [b :: (tmin.map (fun d =>
          d * (levels.map (fun trip => trip.2.2)).prod) ++ [c0])] ++
        ustackConsumes b levels tmin from rfl]
  rw [hgo]
  dsimp only
  rw [show popLast [b :: (tmin.map (fun d =>
        d * (levels.map (fun trip => trip.2.2)).prod) ++ [c0])]
      = Except.ok (b :: (tmin.map (fun d =>
          d * (levels.map (fun trip => trip.2.2)).prod) ++ [c0]), []) from rfl]
  dsimp only
  rw [show combineShape
        (b :: (tmin.map (fun d =>
          d * (levels.map (fun trip => trip.2.2)).prod) ++
            [lastChannelOf levels c]))
        (b :: (tmin.map (fun d =>
          d * (levels.map (fun trip => trip.2.2)).prod) ++ [c0]))
      = Except.ok (b :: (tmin.map (fun d =>
          d * (levels.map (fun trip => trip.2.2)).prod) ++
            [lastChannelOf levels c])) from by
    simp only [combineShape]
    rw [show (b :: (tmin.map (fun d =>
          d * (levels.map (fun trip => trip.2.2)).prod) ++
            [lastChannelOf levels c])).dropLast
        = b :: tmin.map (fun d => d * (levels.map (fun trip => trip.2.2)).prod) from
      @List.dropLast_concat Nat
        (b :: tmin.map (fun d => d * (levels.map (fun trip => trip.2.2)).prod)) _,
      show (b :: (tmin.map (fun d =>
          d * (levels.map (fun trip => trip.2.2)).prod) ++ [c0])).dropLast
        = b :: tmin.map (fun d => d * (levels.map (fun trip => trip.2.2)).prod) from
      @List.dropLast_concat Nat
        (b :: tmin.map (fun d => d * (levels.map (fun trip => trip.2.2)).prod)) c0]
    rw [if_pos rfl]]
  dsimp only
  rw [show convShape 128
        (b :: (tmin.map (fun d =>
          d * (levels.map (fun trip => trip.2.2)).prod) ++
            [lastChannelOf levels c]))
      = b :: (tmin.map (fun d =>
          d * (levels.map (fun trip => trip.2.2)).prod) ++ [128]) from
    convShape_concat 128
      (b :: tmin.map (fun d => d * (levels.map (fun trip => trip.2.2)).prod)) _]

theorem getLast_skips (b c0 : Nat) (t0 tmin : List Nat) (trip : Nat × Nat × Nat)
    (restRev : List (Nat × Nat × Nat)) (hnb : 0 < trip.2.1) :
    ((b :: (t0 ++ [c0])) :: ustackConsumes b (trip :: restRev) tmin).getLast?
      = some (b :: (tmin ++ [trip.1])) := by
  obtain ⟨ch, nb, r⟩ := trip
  simp only at hnb
  obtain ⟨m, rfl⟩ : ∃ m, nb = m + 1 := ⟨nb - 1, by omega⟩
  simp only [ustackConsumes]
  rw [List.replicate_succ']
  rw [show (b :: (t0 ++ [c0])) ::
        (ustackConsumes b restRev (tmin.map (fun d => d * r)) ++
          (List.replicate m (b :: (tmin ++ [ch])) ++ [b :: (tmin ++ [ch])]))
      = ((b :: (t0 ++ [c0])) ::
          (ustackConsumes b restRev (tmin.map (fun d => d * r)) ++
            List.replicate m (b :: (tmin ++ [ch])))) ++ [b :: (tmin ++ [ch])] from by
    simp [List.append_assoc]]
  rw [List.getLast?_concat]

theorem zipWith_triple_blocks (nb : Nat) (l l' : List Nat) (trip : Nat × Nat × Nat) :
    trip ∈ List.zipWith (fun c r => (c, nb, r)) l l' → trip.2.1 = nb := by
  induction l generalizing l' with
  | nil => intro h; simp at h
  | cons a l2 ih =>
      cases l' with
      | nil => intro h; simp at h
      | cons a2 l3 =>
          intro h
          rw [List.zipWith_cons_cons, List.mem_cons] at h
          rcases h with h | h
          · rw [h]
          · exact ih l3 h

theorem zipWith_triple_ratio (nb : Nat) (l l' : List Nat) (trip : Nat × Nat × Nat) :
    trip ∈ List.zipWith (fun c r => (c, nb, r)) l l' → trip.2.2 ∈ l' := by
  induction l generalizing l' with
  | nil => intro h; simp at h
  | cons a l2 ih =>
      cases l' with
      | nil => intro h; simp at h
      | cons a2 l3 =>
          intro h
          rw [List.zipWith_cons_cons, List.mem_cons] at h
          rcases h with h | h
          · rw [h]
            exact List.mem_cons_self _ _
          · exact List.mem_cons_of_mem _ (ih l3 h)

theorem zipWith_triple_ratios_map (nb : Nat) (l l' : List Nat)
    (h : l.length = l'.length) :
    (List.zipWith (fun c r => (c, nb, r)) l l').map (fun trip => trip.2.2) = l' := by
  induction l generalizing l' with
  | nil =>
      cases l' with
      | nil => rfl
      | cons a2 l3 => simp at h
  | cons a l2 ih =>
      cases l' with
      | nil => simp at h
      | cons a2 l3 =>
          simp only [List.zipWith_cons_cons, List.map_cons]
          rw [ih l3 (by simpa using h)]

theorem unet_stacks_spec (cfg : UNetCfg) (b cin : Nat) (wsp : List Nat)
    (hlen : cfg.num_channels.length = cfg.downsample_ratio.length)
    (hnlev : 0 < cfg.num_channels.length)
    (hnb : 0 < cfg.num_blocks)
    (hrpos : ∀ r ∈ cfg.downsample_ratio, 0 < r)
    (hdvd : ∀ d ∈ wsp, cfg.downsample_ratio.prod ∣ d) :
    ∃ skips trd xl tru,
      dstackShape cfg.use_attention (levelsOf cfg) (b :: (wsp ++ [cin])) =
        Except.ok
          (b :: (wsp.map (fun d => d / cfg.downsample_ratio.prod) ++
            [lastChannelOf (levelsOf cfg) 128]),
           skips, trd) ∧
      skips.getLast? = some xl ∧
      ustackShape cfg.use_attention (levelsOfU cfg) xl skips =
        Except.ok (b :: (wsp ++ [128]), [], tru) := by
  set L := levelsOf cfg with hL
  have hmapr : L.map (fun trip => trip.2.2) = cfg.downsample_ratio := by
    rw [hL]
    exact zipWith_triple_ratios_map _ _ _ hlen
  have hdvd2 : ∀ d ∈ wsp, (L.map (fun trip => trip.2.2)).prod ∣ d := by
    rw [hmapr]
    exact hdvd
  obtain ⟨trd, hds⟩ := dstackShape_spec cfg.use_attention L b cin wsp hdvd2
  set tmin := wsp.map (fun d => d / (L.map (fun trip => trip.2.2)).prod) with htmin
  have hLU : levelsOfU cfg = L.reverse := by
    rw [hL]
    unfold levelsOfU levelsOf
    exact (List.reverse_zipWith hlen).symm
  have hLlen : L.length = cfg.num_channels.length := by
    rw [hL]
    unfold levelsOf
    rw [List.length_zipWith, hlen, min_self]
  have hLne : L ≠ [] := by
    intro he
    rw [he] at hLlen
    simp only [List.length_nil] at hLlen
    omega
  have hRLne : L.reverse ≠ [] := by
    simpa using hLne
  obtain ⟨trip, restRev, hRL⟩ : ∃ trip restRev, L.reverse = trip :: restRev := by
    cases hq : L.reverse with
    | nil => exact absurd hq hRLne
    | cons a as => exact ⟨a, as, rfl⟩
  have htripL : trip ∈ L := by
    have h2 : trip ∈ L.reverse := by
      rw [hRL]
      exact List.mem_cons_self _ _
    simpa using h2
  have htripnb : trip.2.1 = cfg.num_blocks := by
    rw [hL] at htripL
    exact zipWith_triple_blocks _ _ _ _ htripL
  have hposL : ∀ t2 ∈ L, 0 < t2.2.2 := by
    intro t2 ht2
    rw [hL] at ht2
    exact hrpos _ (zipWith_triple_ratio _ _ _ _ ht2)
  have hposRL : ∀ t2 ∈ L.reverse, 0 < t2.2.2 := by
    intro t2 ht2
    exact hposL t2 (by simpa using ht2)
  have htrip1 : lastChannelOf L 128 = trip.1 := by
    have hlast : L.getLast? = some trip := by
      rw [← List.head?_reverse, hRL]
      rfl
    simp [lastChannelOf, hlast]
  have hskips : dstackSkipsSpec b L wsp = ustackConsumes b L.reverse tmin := by
    rw [htmin]
    exact dstackSkipsSpec_eq b L wsp hdvd2
  have hprodrev : (L.reverse.map (fun trip => trip.2.2)).prod
      = (L.map (fun trip => trip.2.2)).prod := by
    rw [List.map_reverse, List.prod_reverse]
  have hback : tmin.map (fun d => d * (L.reverse.map (fun trip => trip.2.2)).prod)
      = wsp := by
    rw [hprodrev, htmin, List.map_map]
    have hpt : ∀ d ∈ wsp, ((fun d => d * (L.map (fun trip => trip.2.2)).prod) ∘
        (fun d => d / (L.map (fun trip => trip.2.2)).prod)) d = d := by
      intro d hd
      simp only [Function.comp]
      exact Nat.div_mul_cancel (hdvd2 d hd)
    rw [List.map_congr_left hpt]
    exact List.map_id wsp
  have hgl : ((b :: (wsp ++ [128])) :: dstackSkipsSpec b L wsp).getLast?
      = some (b :: (tmin ++ [trip.1])) := by
    rw [hskips, hRL]
    exact getLast_skips b 128 wsp tmin trip restRev (by rw [htripnb]; exact hnb)
  obtain ⟨tru, hus⟩ := ustackShape_spec cfg.use_attention L.reverse b trip.1 128
    tmin hposRL
  refine ⟨(b :: (wsp ++ [128])) :: dstackSkipsSpec b L wsp, trd,
    b :: (tmin ++ [trip.1]), tru, ?_, hgl, ?_⟩
  · rw [← hmapr, ← htmin]
    exact hds
  · rw [hLU, hskips, ← hback]
    exact hus

/-- C2 (amended): for every input `x` of shape `(batch, *spatial, channels)`
and a U-Net configuration with aligned nonempty `num_channels` /
`downsample_ratio`, positive ratios and at least one residual block per
level, if the working spatial resolution (`resize_to_shape` when set,
otherwise the input spatial dimensions) is divisible by the product of the
`downsample_ratio` entries, then `UNet.__call__` returns an array of shape
`(batch, *spatial, out_channels)`: the downsampling stack followed by the
upsampling stack built with the reversed lists restores the working
resolution, the final convolution sets the channel count, and when
`resize_to_shape` is set the output is resized back to the original input
spatial size. -/
theorem unet_shape_spec (cfg : UNetCfg) (b cin : Nat) (sp : List Nat)
    (hlen : cfg.num_channels.length = cfg.downsample_ratio.length)
    (hnlev : 0 < cfg.num_channels.length)
    (hnb : 0 < cfg.num_blocks)
    (hrpos : ∀ r ∈ cfg.downsample_ratio, 0 < r)
    (hdvd : ∀ d ∈ cfg.resize_to_shape.getD sp, cfg.downsample_ratio.prod ∣ d)
    (hwlen : ∀ w, cfg.resize_to_shape = some w → w.length = sp.length) :
    unetShape cfg (b :: (sp ++ [cin])) [b] [] =
      Except.ok (b :: (sp ++ [cfg.out_channels])) := by
  obtain ⟨skips, trd, xl, tru, hds, hgl, hus⟩ :=
    unet_stacks_spec cfg b cin (cfg.resize_to_shape.getD sp) hlen hnlev hnb hrpos hdvd
  simp only [unetShape]
  rw [if_neg (by simp)]
  rcases hrs : cfg.resize_to_shape with _ | w
  · rw [hrs] at hds hus
    simp only [Option.getD_none] at hds hus
    dsimp only
    rw [show mergeChannelCondShape cfg.cond_embed_dim (b :: (sp ++ [cin])) []
        = Except.ok (b :: (sp ++ [cin])) from rfl]
    dsimp only
    rw [hds]
    dsimp only
    rw [hgl]
    dsimp only
    rw [hus]
    dsimp only
    rw [show convShape cfg.out_channels (b :: (sp ++ [128]))
        = b :: (sp ++ [cfg.out_channels]) from
      convShape_concat cfg.out_channels (b :: sp) 128]
  · rw [hrs] at hds hus
    simp only [Option.getD_some] at hds hus
    have hwl : w.length = sp.length := hwlen w hrs
    have hx1 : resizeShape w (b :: (sp ++ [cin])) = b :: (w ++ [cin]) := by
      simp only [resizeShape]
      rw [show (b :: (sp ++ [cin])).length - w.length - 1 = 1 from by
        simp only [List.length_cons, List.length_append, List.length_cons,
          List.length_nil, hwl]
        omega]
      rw [show (b :: (sp ++ [cin])).getLastD 0 = cin from
        List.getLastD_concat 0 cin (b :: sp)]
      rfl
    dsimp only
    rw [hx1]
    rw [show mergeChannelCondShape cfg.cond_embed_dim (b :: (w ++ [cin])) []
        = Except.ok (b :: (w ++ [cin])) from rfl]
    dsimp only
    rw [hds]
    dsimp only
    rw [hgl]
    dsimp only
    rw [hus]
    dsimp only
    rw [show convShape cfg.out_channels (b :: (w ++ [128]))
        = b :: (w ++ [cfg.out_channels]) from
      convShape_concat cfg.out_channels (b :: w) 128]
    by_cases hwnil : w = []
    · subst hwnil
      have hsp : sp = [] := by
        simp only [List.length_nil] at hwl
        exact (List.length_eq_zero.mp hwl.symm)
      subst hsp
      rw [if_neg (by simp)]
    · rw [if_pos (by simpa using hwnil)]
      have hinp : ((b :: (sp ++ [cin])).drop 1).dropLast = sp := by
        simp only [List.drop_one, List.tail_cons]
        exact @List.dropLast_concat Nat sp cin
      rw [hinp]
      rw [show resizeShape sp (b :: (w ++ [cfg.out_channels]))
          = b :: (sp ++ [cfg.out_channels]) from by
        simp only [resizeShape]
        rw [show (b :: (w ++ [cfg.out_channels])).length - sp.length - 1 = 1 from by
          simp only [List.length_cons, List.length_append, List.length_cons,
            List.length_nil, hwl]
          omega]
        rw [show (b :: (w ++ [cfg.out_channels])).getLastD 0 = cfg.out_channels from
          List.getLastD_concat 0 cfg.out_channels (b :: w)]
        rfl]

/-- The concrete configuration refuting C2 as literally stated: one level
with 8 channels, downsample ratio 2, one residual block and
`resize_to_shape = (3,)`. -/
def cfgCE : UNetCfg := UNetCfg.mk 1 (some [3]) [8] [2] 1 false 128

/-- Counterexample to C2 as stated: the input `(1, 4, 1)` has its spatial
dimension 4 divisible by the product of the downsample ratios (2), yet the
forward pass fails (the working resolution `resize_to_shape = (3,)` is not
divisible by 2), so no array of shape `(1, 4, out_channels)` is returned. -/
theorem unet_shape_resize_counterexample :
    (∀ d ∈ [4], cfgCE.downsample_ratio.prod ∣ d) ∧
    unetShape cfgCE (1 :: ([4] ++ [1])) [1] [] =
      Except.error "downsample: spatial dimensions not divisible by ratio" ∧
    unetShape cfgCE (1 :: ([4] ++ [1])) [1] [] ≠
      Except.ok (1 :: ([4] ++ [cfgCE.out_channels])) := by
  refine ⟨by decide, rfl, ?_⟩
  intro h
  rw [show unetShape cfgCE (1 :: ([4] ++ [1])) [1] [] =
    Except.error "downsample: spatial dimensions not divisible by ratio" from rfl] at h
  exact Except.noConfusion h

/-- A concrete witness configuration for the amended C2. -/
def cfgW : UNetCfg := UNetCfg.mk 1 (some [6]) [8] [2] 1 false 128

theorem unet_shape_spec_witness :
    unetShape cfgW (1 :: ([4] ++ [1])) [1] [] =
      Except.ok (1 :: ([4] ++ [cfgW.out_channels])) :=
  unet_shape_spec cfgW 1 1 [4] rfl (by decide) (by decide)
    (by decide) (by decide) (by intro w hw; injection hw with hw2; rw [← hw2]; rfl)
